import Mathlib

/-!
# Monte Carlo area of a three-circle intersection (`analytical_a1.cpp`)

A shallow embedding of `src/analytical_a1.cpp`.

* `double` is a type parameter `D`.  Every definition asks only for the
  operations the C++ expression it embeds uses (`+ - * / <=`, the conversion
  from `int`, decimal literals), so the definitions make no assumption on how
  these operations round.  Theorems that are pure control-flow facts are proved
  for every such `D`; theorems that need the laws of arithmetic are proved for
  an arbitrary linearly ordered field (exact arithmetic), and say so.  `F64` is
  a model of IEEE 754 binary64 with round to nearest, ties to even: the
  definitions instantiated at `F64` show what the program does when a `double`
  operation rounds, overflows or underflows, and the theorems on `F64` rest on
  two facts proved below: rounding to nearest is monotone, and it returns every
  value of the format unchanged.
* `<random>` and `<cmath>` are not part of the repository: the generator and
  the distribution are the fields of `Random`, the constant `M_PI` and the
  functions `asin`, `sqrt`, `abs` are the fields of `Cmath`.
* `int` is `Int`; the only `int` arithmetic of the program is the counter
  `points_inside` (at most `num_points`), the loop index and the sweep variable
  (at most `100100`), none of which can leave the 32-bit range.
-/

namespace SET3

/-! ## Data model (lines 8-17) -/

/-- The `struct Point` of the source: two coordinates. -/
structure Point (D : Type) where
  x : D
  y : D

/-- The `struct Circle` of the source. Its constructor `Circle(Point c, double r)`
stores both arguments as they are: it is `Circle.mk`. -/
structure Circle (D : Type) where
  center : Point D
  radius : D

/-! ## Library collaborators -/

/-- What the program uses of `<random>`: `std::mt19937 gen(seed)` builds a
generator state from the seed, and calling a `std::uniform_real_distribution<>`
with bounds `a`, `b` on a generator yields a value and the advanced generator.
The two arguments of `Point p(x_dist(gen), y_dist(gen))` are evaluated in an
order the language leaves to the compiler: `leftToRight` records it. -/
structure Random (D G : Type) where
  mt19937 : Int → G
  uniform_real_distribution : D → D → G → D × G
  leftToRight : Bool

/-- What the program uses of `<cmath>`. -/
structure Cmath (D : Type) where
  M_PI : D
  asin : D → D
  sqrt : D → D
  abs : D → D

/-- How a call of a C++ function ends: with a returned value, or by leaving
through an exception. -/
inductive Outcome (α : Type) where
  | returned (value : α)
  | thrown (what : String)

/-! ## Geometry (lines 19-32) -/

/-- Lines 19-23: `dx * dx + dy * dy <= c.radius * c.radius`. -/
def isPointInCircle {D : Type} [Add D] [Sub D] [Mul D] [LE D]
    [∀ a b : D, Decidable (a ≤ b)] (p : Point D) (c : Circle D) : Bool :=
  let dx := p.x - c.center.x
  let dy := p.y - c.center.y
  decide (dx * dx + dy * dy ≤ c.radius * c.radius)

/-- Lines 25-32: the loop over `circles` that returns `false` at the first
circle not containing `p`, and `true` after the last one. -/
def isPointInIntersection {D : Type} [Add D] [Sub D] [Mul D] [LE D]
    [∀ a b : D, Decidable (a ≤ b)] (p : Point D) : List (Circle D) → Bool
  | [] => true
  | c :: rest =>
    if !isPointInCircle p c then false else isPointInIntersection p rest

/-! ## The estimator (lines 34-54) -/

/-- Line 46: `Point p(x_dist(gen), y_dist(gen))`, one draw per coordinate from
the same generator. -/
def drawPoint {D G : Type} (R : Random D G) (x_min x_max y_min y_max : D) (gen : G) :
    Point D × G :=
  if R.leftToRight then
    let dx := R.uniform_real_distribution x_min x_max gen
    let dy := R.uniform_real_distribution y_min y_max dx.2
    (Point.mk dx.1 dy.1, dy.2)
  else
    let dy := R.uniform_real_distribution y_min y_max gen
    let dx := R.uniform_real_distribution x_min x_max dy.2
    (Point.mk dx.1 dy.1, dx.2)

/-- Lines 45-50: the sampling loop, with the number of iterations still to run,
the generator and the counter `points_inside` as its state. -/
def monteCarloLoop {D G : Type} [Add D] [Sub D] [Mul D] [LE D]
    [∀ a b : D, Decidable (a ≤ b)] (R : Random D G) (circles : List (Circle D))
    (x_min x_max y_min y_max : D) : Nat → G → Int → Int
  | 0, _, points_inside => points_inside
  | n + 1, gen, points_inside =>
    let drawn := drawPoint R x_min x_max y_min y_max gen
    monteCarloLoop R circles x_min x_max y_min y_max n drawn.2
      (if isPointInIntersection drawn.1 circles then points_inside + 1 else points_inside)

/-- Lines 34-54. The loop `for (int i = 0; i < num_points; ++i)` runs
`num_points` times, and not at all when `num_points <= 0`: `num_points.toNat`
iterations. The source's default `seed = 42` is passed explicitly. -/
def monteCarloArea {D G : Type} [Add D] [Sub D] [Mul D] [Div D] [LE D]
    [∀ a b : D, Decidable (a ≤ b)] [IntCast D] (R : Random D G) (circles : List (Circle D))
    (x_min x_max y_min y_max : D) (num_points : Int) (seed : Int) : D :=
  let gen := R.mt19937 seed
  let points_inside :=
    monteCarloLoop R circles x_min x_max y_min y_max num_points.toNat gen 0
  let area_rect := (x_max - x_min) * (y_max - y_min)
  ((points_inside : D) / (num_points : D)) * area_rect

/-- The way a call of `monteCarloArea` ends. The body (lines 38-54) has no
`throw`, no assertion and no exit other than the `return` of line 53, and the
`<random>` constructors and calls it makes do not throw. -/
def monteCarloAreaCall {D G : Type} [Add D] [Sub D] [Mul D] [Div D] [LE D]
    [∀ a b : D, Decidable (a ≤ b)] [IntCast D] (R : Random D G) (circles : List (Circle D))
    (x_min x_max y_min y_max : D) (num_points : Int) (seed : Int) : Outcome D :=
  Outcome.returned (monteCarloArea R circles x_min x_max y_min y_max num_points seed)

/-- The points the loop of `monteCarloArea` draws, in order, for a rectangle
and a generator: the specification's "N points from the Sampler". -/
def sampledPoints {D G : Type} (R : Random D G) (x_min x_max y_min y_max : D) :
    Nat → G → List (Point D)
  | 0, _ => []
  | n + 1, gen =>
    let drawn := drawPoint R x_min x_max y_min y_max gen
    drawn.1 :: sampledPoints R x_min x_max y_min y_max n drawn.2

/-! ## The reference value (lines 56-58) -/

/-- Lines 56-58: `0.25 * M_PI + 1.25 * std::asin(0.8) - 1.0`. -/
def calculateExactArea {D : Type} [Add D] [Sub D] [Mul D] [OfScientific D]
    (m : Cmath D) : D :=
  0.25 * m.M_PI + 1.25 * m.asin 0.8 - 1.0

/-! ## The experiment (lines 60-108) -/

/-- Lines 61-65: the three circles of `runExperiment`. -/
def circles {D : Type} [Div D] [OfScientific D] (m : Cmath D) : List (Circle D) :=
  [ Circle.mk (Point.mk 1.0 1.0) 1.0,
    Circle.mk (Point.mk 1.5 2.0) (m.sqrt 5.0 / 2.0),
    Circle.mk (Point.mk 2.0 1.5) (m.sqrt 5.0 / 2.0) ]

/-- A rectangle `x_min, x_max, y_min, y_max`, as `runExperiment` keeps them in
four local variables. -/
structure Region (D : Type) where
  x_min : D
  x_max : D
  y_min : D
  y_max : D

/-- Lines 67-68: the wide region. -/
def wide {D : Type} [OfScientific D] : Region D := Region.mk 0.0 3.0 0.0 3.0

/-- Lines 71-72: the narrow region. -/
def narrow {D : Type} [OfScientific D] : Region D := Region.mk 1.0 2.0 1.0 2.0

/-- Lines 52, 69, 73: `(x_max - x_min) * (y_max - y_min)`. -/
def area_rect {D : Type} [Sub D] [Mul D] (r : Region D) : D :=
  (r.x_max - r.x_min) * (r.y_max - r.y_min)

/-- One line of the output file, in the order of lines 97-99 (and of the
header of lines 78-79). -/
structure Row (D : Type) where
  N : Int
  Wide_Area : D
  Wide_Relative_Error : D
  Narrow_Area : D
  Narrow_Relative_Error : D
  Wide_Absolute_Error : D
  Narrow_Absolute_Error : D

/-- What one iteration of the sweep writes: its row of the file, and whether
it prints the progress line of lines 101-103. -/
structure Iteration (D : Type) where
  row : Row D
  progress : Bool

/-- Lines 87-103: the body of the sweep loop for one `N`. -/
def sweepBody {D G : Type} [Add D] [Sub D] [Mul D] [Div D] [LE D]
    [∀ a b : D, Decidable (a ≤ b)] [IntCast D] [OfScientific D]
    (R : Random D G) (m : Cmath D) (N : Int) : Iteration D :=
  let exact_area := calculateExactArea m
  let wide_area :=
    monteCarloArea R (circles m) (wide).x_min (wide).x_max (wide).y_min (wide).y_max N N
  let wide_rel_error := m.abs (wide_area - exact_area) / exact_area
  let wide_abs_error := m.abs (wide_area - exact_area)
  let narrow_area :=
    monteCarloArea R (circles m) (narrow).x_min (narrow).x_max (narrow).y_min (narrow).y_max N N
  let narrow_rel_error := m.abs (narrow_area - exact_area) / exact_area
  let narrow_abs_error := m.abs (narrow_area - exact_area)
  Iteration.mk
    (Row.mk N wide_area wide_rel_error narrow_area narrow_rel_error
      wide_abs_error narrow_abs_error)
    (decide (Int.tmod N 10000 = 0))

/-- Lines 86-104: `for (int N = 100; N <= 100000; N += 500)`, from a current
value of `N` on. -/
def sweepFrom {D G : Type} [Add D] [Sub D] [Mul D] [Div D] [LE D]
    [∀ a b : D, Decidable (a ≤ b)] [IntCast D] [OfScientific D]
    (R : Random D G) (m : Cmath D) (N : Int) : List (Iteration D) :=
  if N ≤ 100000 then sweepBody R m N :: sweepFrom R m (N + 500) else []
termination_by (100000 + 1 - N).toNat
decreasing_by omega

/-- Lines 60-108: what `runExperiment` writes, iteration by iteration. -/
def runExperiment {D G : Type} [Add D] [Sub D] [Mul D] [Div D] [LE D]
    [∀ a b : D, Decidable (a ≤ b)] [IntCast D] [OfScientific D]
    (R : Random D G) (m : Cmath D) : List (Iteration D) :=
  sweepFrom R m 100

/-- The three closed disks of `runExperiment` (lines 61-65) as a predicate on
the real plane: squared radii `1`, `5/4`, `5/4`. -/
def InThreeDisks (q : ℝ × ℝ) : Prop :=
  (q.1 - 1) ^ 2 + (q.2 - 1) ^ 2 ≤ 1 ∧ (q.1 - 3 / 2) ^ 2 + (q.2 - 2) ^ 2 ≤ 5 / 4 ∧
    (q.1 - 2) ^ 2 + (q.2 - 3 / 2) ^ 2 ≤ 5 / 4

/-! ## Concrete collaborators, for evaluating the definitions -/

/-- A small linear congruential generator over the rationals standing in for
`std::mt19937` and `std::uniform_real_distribution<>`: the state is a number,
a draw maps it into `[a, b)` and steps it. -/
def lcg : Random ℚ Nat where
  mt19937 := fun seed => seed.toNat % 16
  uniform_real_distribution := fun a b g =>
    (a + (b - a) * ((g % 16 : Nat) / 16), (5 * g + 3) % 16)
  leftToRight := true

/-! ## A model of `double` (IEEE 754 binary64, round to nearest, ties to even) -/

/-- A `double`: not-a-number, an infinity, or the finite value
`(-1)^neg * m * 2^e`. The operations below produce finite values in the form
of the format: `m < 2^53`, `-1074 <= e <= 971`, and `2^52 <= m` unless
`e = -1074` (zero and the subnormal numbers). -/
inductive F64 where
  | nan
  | inf (neg : Bool)
  | fin (neg : Bool) (m : Nat) (e : Int)
  deriving DecidableEq

/-- The number of binary digits of `n`, in at most `fuel` steps that drop 64
digits or one digit. -/
def F64.bitLenAux : Nat → Nat → Nat
  | 0, _ => 0
  | fuel + 1, n =>
    if n = 0 then 0
    else if 2 ^ 64 ≤ n then F64.bitLenAux fuel (n / 2 ^ 64) + 64
    else F64.bitLenAux fuel (n / 2) + 1

/-- The number of binary digits of `n` (`0` for `n = 0`). -/
def F64.bitLen (n : Nat) : Nat := F64.bitLenAux n n

/-- Rounding to the format: the `double` nearest to `M * 2^E`, where `sticky`
says that the exact value lies strictly above `M * 2^E` and below
`(M + 1) * 2^E` (used by division, where `M` has at least 64 digits); ties go
to the even significand, and magnitudes of `2^1024` and more become infinite. -/
def F64.round (neg : Bool) (M : Nat) (E : Int) (sticky : Bool) : F64 :=
  if M = 0 then F64.fin neg 0 (-1074)
  else
    let e1 : Int := max (E + (F64.bitLen M : Int) - 53) (-1074)
    if e1 ≤ E then
      if 971 < e1 then F64.inf neg else F64.fin neg (M * 2 ^ (E - e1).toNat) e1
    else
      let s := (e1 - E).toNat
      let q := M / 2 ^ s
      let r := M % 2 ^ s
      let h := 2 ^ (s - 1)
      let up := decide (h < r) || (decide (r = h) && (sticky || decide (q % 2 = 1)))
      let m := if up then q + 1 else q
      let m2 := if m = 2 ^ 53 then 2 ^ 52 else m
      let e2 := if m = 2 ^ 53 then e1 + 1 else e1
      if 971 < e2 then F64.inf neg else F64.fin neg m2 e2

/-- The `double` nearest to `n / d * 2^E`, for `d > 0`. -/
def F64.roundQuot (neg : Bool) (n d : Nat) (E : Int) : F64 :=
  if n = 0 then F64.fin neg 0 (-1074)
  else
    let k := F64.bitLen d + 64
    F64.round neg (n * 2 ^ k / d) (E - (k : Int)) (decide (n * 2 ^ k % d ≠ 0))

/-- The signed integer `(-1)^neg * m`. -/
def F64.signed (neg : Bool) (m : Nat) : Int := if neg then -(m : Int) else (m : Int)

/-- Unary minus. -/
def F64.neg : F64 → F64
  | F64.nan => F64.nan
  | F64.inf a => F64.inf (!a)
  | F64.fin a m e => F64.fin (!a) m e

/-- Addition. -/
def F64.add : F64 → F64 → F64
  | F64.nan, _ => F64.nan
  | _, F64.nan => F64.nan
  | F64.inf a, F64.inf b => if a = b then F64.inf a else F64.nan
  | F64.inf a, F64.fin _ _ _ => F64.inf a
  | F64.fin _ _ _, F64.inf b => F64.inf b
  | F64.fin a m1 e1, F64.fin b m2 e2 =>
    let e := min e1 e2
    let s := F64.signed a (m1 * 2 ^ (e1 - e).toNat) + F64.signed b (m2 * 2 ^ (e2 - e).toNat)
    if s = 0 then F64.fin (a && b) 0 (-1074)
    else F64.round (decide (s < 0)) s.natAbs e false

/-- Subtraction. -/
def F64.sub (x y : F64) : F64 := F64.add x (F64.neg y)

/-- Multiplication. -/
def F64.mul : F64 → F64 → F64
  | F64.nan, _ => F64.nan
  | _, F64.nan => F64.nan
  | F64.inf a, F64.inf b => F64.inf (xor a b)
  | F64.inf a, F64.fin b m _ => if m = 0 then F64.nan else F64.inf (xor a b)
  | F64.fin a m _, F64.inf b => if m = 0 then F64.nan else F64.inf (xor a b)
  | F64.fin a m1 e1, F64.fin b m2 e2 => F64.round (xor a b) (m1 * m2) (e1 + e2) false

/-- Division. -/
def F64.div : F64 → F64 → F64
  | F64.nan, _ => F64.nan
  | _, F64.nan => F64.nan
  | F64.inf _, F64.inf _ => F64.nan
  | F64.inf a, F64.fin b _ _ => F64.inf (xor a b)
  | F64.fin a _ _, F64.inf b => F64.fin (xor a b) 0 (-1074)
  | F64.fin a m1 e1, F64.fin b m2 e2 =>
    if m2 = 0 then (if m1 = 0 then F64.nan else F64.inf (xor a b))
    else F64.roundQuot (xor a b) m1 m2 (e1 - e2)

/-- The comparison `<=`: false as soon as one side is not a number. -/
def F64.le : F64 → F64 → Bool
  | F64.nan, _ => false
  | _, F64.nan => false
  | F64.inf a, F64.inf b => a || !b
  | F64.inf a, F64.fin _ _ _ => a
  | F64.fin _ _ _, F64.inf b => !b
  | F64.fin a m1 e1, F64.fin b m2 e2 =>
    let e := min e1 e2
    decide (F64.signed a (m1 * 2 ^ (e1 - e).toNat) ≤ F64.signed b (m2 * 2 ^ (e2 - e).toNat))

/-- The conversion of an `int`. -/
def F64.ofInt (n : Int) : F64 := F64.round (decide (n < 0)) n.natAbs 0 false

/-- A decimal literal `m * 10^e` (`m / 10^e` when `s` is set), correctly rounded. -/
def F64.ofScientific (m : Nat) (s : Bool) (e : Nat) : F64 :=
  if s then F64.roundQuot false m (10 ^ e) 0 else F64.round false (m * 10 ^ e) 0 false

/-- The exact value of a finite `double` (`0` for the others). -/
def F64.toRat : F64 → ℚ
  | F64.fin a m e => (if a then -1 else 1) * (m : ℚ) * (2 : ℚ) ^ e
  | _ => 0

instance : Add F64 := ⟨F64.add⟩
instance : Sub F64 := ⟨F64.sub⟩
instance : Mul F64 := ⟨F64.mul⟩
instance : Div F64 := ⟨F64.div⟩
instance : Neg F64 := ⟨F64.neg⟩
instance : LE F64 := ⟨fun x y => F64.le x y = true⟩
instance (x y : F64) : Decidable (x ≤ y) := inferInstanceAs (Decidable (F64.le x y = true))
instance : IntCast F64 := ⟨F64.ofInt⟩
instance : OfScientific F64 := ⟨F64.ofScientific⟩

/-- The absolute value `std::abs`: the sign is cleared. -/
def F64.abs : F64 → F64
  | F64.nan => F64.nan
  | F64.inf _ => F64.inf false
  | F64.fin _ m e => F64.fin false m e

/-- The stand-in generator `lcg` over `double`. -/
def lcg64 : Random F64 Nat where
  mt19937 := fun seed => seed.toNat % 16
  uniform_real_distribution := fun a b g =>
    (a + (b - a) * ((((g % 16 : Nat) : Int) : F64) / ((16 : Int) : F64)), (5 * g + 3) % 16)
  leftToRight := true

/-! ## The estimator on the storage of its generator (lines 39-54) -/

/-- Specification of round to nearest, ties to even, on the grid of exponent
`e`: `m * 2^e` is the result for the exact value `x >= 0` when `e` is the
exponent of the binade of `x` (or the least exponent) and `m` is an integer
nearest to `x / 2^e`, the even one at a tie. -/
def F64.Nearest (x : ℚ) (m : Nat) (e : Int) : Prop :=
  -1074 ≤ e ∧ (e = -1074 ∨ 2 ^ 52 * 2 ^ e ≤ x) ∧ x < 2 ^ 53 * 2 ^ e ∧
  2 * (m : ℚ) * 2 ^ e ≤ 2 * x + 2 ^ e ∧ 2 * x ≤ (2 * (m : ℚ) + 1) * 2 ^ e ∧
  (2 * x = (2 * (m : ℚ) + 1) * 2 ^ e → m % 2 = 0) ∧
  (2 * x + 2 ^ e = 2 * (m : ℚ) * 2 ^ e → m % 2 = 0)

/-! ## Helper lemmas -/

theorem isPointInIntersection_cons {D : Type} [Add D] [Sub D] [Mul D] [LE D]
    [∀ a b : D, Decidable (a ≤ b)] (p : Point D) (c : Circle D) (cs : List (Circle D)) :
    isPointInIntersection p (c :: cs) = (isPointInCircle p c && isPointInIntersection p cs) := by
  cases h : isPointInCircle p c <;> simp [isPointInIntersection, h]

theorem isPointInIntersection_eq_all {D : Type} [Add D] [Sub D] [Mul D] [LE D]
    [∀ a b : D, Decidable (a ≤ b)] (p : Point D) (cs : List (Circle D)) :
    isPointInIntersection p cs = cs.all (fun c => isPointInCircle p c) := by
  induction cs with
  | nil => rfl
  | cons c cs ih => rw [isPointInIntersection_cons, ih, List.all_cons]

/-- The counter after `n` iterations: what it held before, plus the number of
drawn points that lie in the intersection. -/
theorem monteCarloLoop_eq_countP {D G : Type} [Add D] [Sub D] [Mul D] [LE D]
    [∀ a b : D, Decidable (a ≤ b)] (R : Random D G) (cs : List (Circle D))
    (x_min x_max y_min y_max : D) (n : Nat) (gen : G) (acc : Int) :
    monteCarloLoop R cs x_min x_max y_min y_max n gen acc =
      acc + ((sampledPoints R x_min x_max y_min y_max n gen).countP
        (fun p => isPointInIntersection p cs) : Nat) := by
  induction n generalizing gen acc with
  | zero => simp [monteCarloLoop, sampledPoints]
  | succ n ih =>
    simp only [monteCarloLoop, sampledPoints, ih, List.countP_cons]
    split
    · simp_all
      ring
    · simp_all

theorem sampledPoints_length {D G : Type} (R : Random D G) (x_min x_max y_min y_max : D)
    (n : Nat) (gen : G) : (sampledPoints R x_min x_max y_min y_max n gen).length = n := by
  induction n generalizing gen with
  | zero => rfl
  | succ n ih => simp [sampledPoints, ih]

/-- Membership in the three circles of `runExperiment`, over the reals with the
real square root: the three closed disks with squared radii `1`, `5/4`, `5/4`. -/
theorem mem_circles_real_iff (p : Point ℝ) :
    isPointInIntersection p (circles (Cmath.mk Real.pi Real.arcsin Real.sqrt abs)) = true ↔
      ((p.x - 1) ^ 2 + (p.y - 1) ^ 2 ≤ 1 ∧
       (p.x - 3 / 2) ^ 2 + (p.y - 2) ^ 2 ≤ 5 / 4 ∧
       (p.x - 2) ^ 2 + (p.y - 3 / 2) ^ 2 ≤ 5 / 4) := by
  have h5 : Real.sqrt 5 / 2 * (Real.sqrt 5 / 2) = 5 / 4 := by
    have := Real.mul_self_sqrt (show (0 : ℝ) ≤ 5 by norm_num)
    nlinarith
  simp only [isPointInIntersection_eq_all, circles, List.all_cons, List.all_nil, Bool.and_true,
    Bool.and_eq_true, isPointInCircle, decide_eq_true_eq]
  norm_num
  rw [h5]
  simp only [sq]

/-- Four and five terms of the alternating series of the arctangent enclose
`arctan (1/3)`. -/
theorem arctan_inv_3_bounds :
    (1 / 3 - 1 / 81 + 1 / 1215 - 1 / 15309 : ℝ) ≤ Real.arctan 3⁻¹ ∧
    Real.arctan 3⁻¹ ≤ (1 / 3 - 1 / 81 + 1 / 1215 - 1 / 15309 + 1 / 177147 : ℝ) := by
  have hx : ‖(3⁻¹ : ℝ)‖ < 1 := by rw [Real.norm_eq_abs, abs_of_pos] <;> norm_num
  have hs := (Real.hasSum_arctan hx).tendsto_sum_nat
  have hs2 : Filter.Tendsto (fun n => ∑ i ∈ Finset.range n,
      (-1 : ℝ) ^ i * ((3⁻¹ : ℝ) ^ (2 * i + 1) / ((2 * i + 1 : ℕ) : ℝ)))
      Filter.atTop (nhds (Real.arctan 3⁻¹)) := by
    refine hs.congr (fun n => Finset.sum_congr rfl (fun i _ => ?_))
    rw [mul_div_assoc]
  have ha : Antitone (fun i : ℕ => (3⁻¹ : ℝ) ^ (2 * i + 1) / ((2 * i + 1 : ℕ) : ℝ)) := by
    intro a b hab
    dsimp only
    gcongr ?_ / ?_
    · exact pow_le_pow_of_le_one (by norm_num) (by norm_num) (by omega)
    · exact_mod_cast (by omega : 2 * a + 1 ≤ 2 * b + 1)
  constructor
  · have := ha.alternating_series_le_tendsto hs2 2
    simp [Finset.sum_range_succ] at this
    norm_num at this ⊢
    linarith
  · have := ha.tendsto_le_alternating_series hs2 2
    simp [Finset.sum_range_succ] at this
    norm_num at this ⊢
    linarith

/-- The angle `asin 0.8` is `2 * arctan (1/2)`. -/
theorem arcsin_four_fifths_eq_two_arctan : Real.arcsin 0.8 = 2 * Real.arctan 2⁻¹ := by
  have h1 : Real.arcsin 0.8 = Real.arctan (4 / 3) := by
    rw [Real.arcsin_eq_arctan (by constructor <;> norm_num)]
    have : Real.sqrt (1 - 0.8 ^ 2) = 0.6 := by
      rw [Real.sqrt_eq_iff_mul_self_eq] <;> norm_num
    rw [this]; norm_num
  have h2 : 2 * Real.arctan 2⁻¹ = Real.arctan (4 / 3) := by
    rw [Real.two_mul_arctan (by norm_num) (by norm_num)]; norm_num
  rw [h1, ← h2]

/-- With the real `pi` and arcsine, the reference value is
`0.875 * pi - 2.5 * arctan (1/3) - 1`. -/
theorem calculateExactArea_real_eq :
    calculateExactArea (Cmath.mk Real.pi Real.arcsin Real.sqrt abs) =
      0.875 * Real.pi - 2.5 * Real.arctan 3⁻¹ - 1 := by
  have h3 := Real.arctan_inv_2_add_arctan_inv_3
  simp only [calculateExactArea, arcsin_four_fifths_eq_two_arctan]
  norm_num
  linarith

/-! ## The area of the intersection (helper lemmas for C6) -/

/-- An antiderivative of `t ↦ √(c - t^2)` inside the disk of squared radius `c`. -/
theorem hasDerivAt_disk_antideriv {c x : ℝ} (hx : x ^ 2 < c) :
    HasDerivAt (fun t : ℝ => (t * √(c - t ^ 2) + c * Real.arcsin (t / √c)) / 2)
      (√(c - x ^ 2)) x := by
  have hc : 0 < c := lt_of_le_of_lt (sq_nonneg x) hx
  have hpos : 0 < c - x ^ 2 := by linarith
  have hs : 0 < √(c - x ^ 2) := Real.sqrt_pos.2 hpos
  have hr : 0 < √c := Real.sqrt_pos.2 hc
  have hrr : √c ^ 2 = c := Real.sq_sqrt hc.le
  have hss : √(c - x ^ 2) ^ 2 = c - x ^ 2 := Real.sq_sqrt hpos.le
  have hq : √(1 - (x / √c) ^ 2) = √(c - x ^ 2) / √c := by
    rw [← Real.sqrt_div hpos.le]
    congr 1
    field_simp
  have hlt : (x / √c) ^ 2 < 1 := by
    rw [div_pow, hrr, div_lt_one hc]; exact hx
  have d1 : HasDerivAt (fun t : ℝ => c - t ^ 2) (-(2 * x)) x := by
    simpa using ((hasDerivAt_id x).pow 2).const_sub c
  have d2 := d1.sqrt hpos.ne'
  have d3 := (hasDerivAt_id x).mul d2
  have hne1 : x / √c ≠ -1 := by nlinarith
  have hne2 : x / √c ≠ 1 := by nlinarith
  have d4 : HasDerivAt (fun t : ℝ => Real.arcsin (t / √c))
      (1 / √(1 - (x / √c) ^ 2) * (1 / √c)) x := by
    have e := (Real.hasDerivAt_arcsin hne1 hne2).comp x ((hasDerivAt_id x).div_const (√c))
    simpa using e
  have d5 := ((d3.add (d4.const_mul c)).div_const 2)
  convert d5 using 1
  rw [hq]
  simp only [id]
  field_simp
  linear_combination (2 * √(c - x ^ 2) * √c) * hss

/-- The integral of `√(c - t^2)` over an interval inside `[-√c, √c]`. -/
theorem integral_sqrt_sub_sq {c a b : ℝ} (ha : a ^ 2 ≤ c) (hb : b ^ 2 ≤ c) (hab : a ≤ b) :
    ∫ t in a..b, √(c - t ^ 2) =
      (b * √(c - b ^ 2) + c * Real.arcsin (b / √c)) / 2 -
        (a * √(c - a ^ 2) + c * Real.arcsin (a / √c)) / 2 := by
  have hcont : ContinuousOn
      (fun t : ℝ => (t * √(c - t ^ 2) + c * Real.arcsin (t / √c)) / 2) (Set.Icc a b) := by
    apply Continuous.continuousOn
    have := Real.continuous_arcsin
    fun_prop
  have hderiv : ∀ x ∈ Set.Ioo a b,
      HasDerivAt (fun t : ℝ => (t * √(c - t ^ 2) + c * Real.arcsin (t / √c)) / 2)
        (√(c - x ^ 2)) x := by
    intro x hx
    apply hasDerivAt_disk_antideriv
    have h1 : 0 < x - a := by linarith [hx.1]
    have h2 : 0 < b - x := by linarith [hx.2]
    nlinarith [mul_pos h1 h2, mul_nonneg h1.le (sub_nonneg.2 hb),
      mul_nonneg h2.le (sub_nonneg.2 ha)]
  have hint : IntervalIntegrable (fun x : ℝ => √(c - x ^ 2)) MeasureTheory.volume a b := by
    apply Continuous.intervalIntegrable
    fun_prop
  exact intervalIntegral.integral_eq_sub_of_hasDerivAt_of_le hab hcont hderiv hint

/-- The quarter of the unit disk around `(1,1)` above `[1,2]`. -/
theorem integral_quarter_disk : ∫ x in (1 : ℝ)..2, √(1 - (x - 1) ^ 2) = Real.pi / 4 := by
  have h : ∫ x in (1 : ℝ)..2, √(1 - (x - 1) ^ 2) =
      ∫ x in (1 - 1 : ℝ)..(2 - 1), √(1 - x ^ 2) :=
    intervalIntegral.integral_comp_sub_right (fun t : ℝ => √(1 - t ^ 2)) (1 : ℝ)
  rw [h, integral_sqrt_sub_sq (by norm_num) (by norm_num) (by norm_num)]
  norm_num
  ring

/-- The part of the disk of squared radius `5/4` around `(3/2, *)` above `[1,2]`. -/
theorem integral_cap :
    ∫ x in (1 : ℝ)..2, √(5 / 4 - (x - 3 / 2) ^ 2) = 1 / 2 + 5 / 4 * Real.arctan 2⁻¹ := by
  have h : ∫ x in (1 : ℝ)..2, √(5 / 4 - (x - 3 / 2) ^ 2) =
      ∫ x in (1 - 3 / 2 : ℝ)..(2 - 3 / 2), √(5 / 4 - x ^ 2) :=
    intervalIntegral.integral_comp_sub_right (fun t : ℝ => √(5 / 4 - t ^ 2)) (3 / 2 : ℝ)
  rw [h, integral_sqrt_sub_sq (by norm_num) (by norm_num) (by norm_num)]
  have e : Real.arctan 2⁻¹ = Real.arcsin ((2 - 3 / 2) / √(5 / 4)) := by
    rw [Real.arctan_eq_arcsin]; norm_num
  have e2 : Real.arcsin ((1 - 3 / 2) / √(5 / 4)) = - Real.arctan 2⁻¹ := by
    rw [e, ← Real.arcsin_neg]; congr 1; ring
  have s1 : √(5 / 4 - (2 - 3 / 2 : ℝ) ^ 2) = 1 := by norm_num
  have s2 : √(5 / 4 - (1 - 3 / 2 : ℝ) ^ 2) = 1 := by norm_num
  rw [s1, s2, e2, ← e]
  ring

/-- The area of the set of points over `s` between the graphs of `f` and `g`,
both graphs included. -/
theorem volume_between_graphs {f g : ℝ → ℝ} (hf : Measurable f) (hg : Measurable g)
    {s : Set ℝ} (hs : MeasurableSet s) :
    MeasureTheory.volume {p : ℝ × ℝ | p.1 ∈ s ∧ p.2 ∈ Set.Icc (f p.1) (g p.1)} =
      ∫⁻ x in s, ENNReal.ofReal (g x - f x) := by
  classical
  rw [MeasureTheory.Measure.volume_eq_prod,
    MeasureTheory.Measure.prod_apply (measurableSet_region_between_cc hf hg hs)]
  have h : (fun x => MeasureTheory.volume
      (Set.preimage (Prod.mk x) {p : ℝ × ℝ | p.1 ∈ s ∧ p.2 ∈ Set.Icc (f p.1) (g p.1)})) =
      s.indicator (fun x => ENNReal.ofReal (g x - f x)) := by
    funext x
    rw [Set.indicator_apply]
    split_ifs with h
    · have e : Set.preimage (Prod.mk x)
          {p : ℝ × ℝ | p.1 ∈ s ∧ p.2 ∈ Set.Icc (f p.1) (g p.1)} = Set.Icc (f x) (g x) := by
        ext y; simp [h]
      rw [e, Real.volume_Icc]
    · have e : Set.preimage (Prod.mk x)
          {p : ℝ × ℝ | p.1 ∈ s ∧ p.2 ∈ Set.Icc (f p.1) (g p.1)} = ∅ := by
        ext y; simp [h]
      rw [e, MeasureTheory.measure_empty]
  have e2 : ∫⁻ x, s.indicator (fun x => ENNReal.ofReal (g x - f x)) x =
      ∫⁻ x in s, ENNReal.ofReal (g x - f x) := MeasureTheory.lintegral_indicator hs _
  rw [← e2]
  exact congrArg (MeasureTheory.lintegral MeasureTheory.volume) h

theorem volume_between_graphs_Ioc (f g : ℝ → ℝ) (hf : Continuous f) (hg : Continuous g)
    {a b : ℝ} (hab : a ≤ b) (hfg : ∀ x ∈ Set.Ioc a b, f x ≤ g x) :
    MeasureTheory.volume
        {p : ℝ × ℝ | p.1 ∈ Set.Ioc a b ∧ p.2 ∈ Set.Icc (f p.1) (g p.1)} =
      ENNReal.ofReal (∫ x in a..b, (g x - f x)) := by
  rw [volume_between_graphs hf.measurable hg.measurable measurableSet_Ioc,
    intervalIntegral.integral_of_le hab]
  rw [MeasureTheory.ofReal_integral_eq_lintegral_ofReal]
  · exact (hg.sub hf).integrableOn_Ioc
  · exact (MeasureTheory.ae_restrict_iff' measurableSet_Ioc).2
      (Filter.Eventually.of_forall (fun x hx => sub_nonneg.2 (hfg x hx)))

theorem volume_between_graphs_Icc (f g : ℝ → ℝ) (hf : Continuous f) (hg : Continuous g)
    {a b : ℝ} (hab : a ≤ b) (hfg : ∀ x ∈ Set.Icc a b, f x ≤ g x) :
    MeasureTheory.volume
        {p : ℝ × ℝ | p.1 ∈ Set.Icc a b ∧ p.2 ∈ Set.Icc (f p.1) (g p.1)} =
      ENNReal.ofReal (∫ x in a..b, (g x - f x)) := by
  rw [volume_between_graphs hf.measurable hg.measurable measurableSet_Icc,
    intervalIntegral.integral_of_le hab, ← MeasureTheory.integral_Icc_eq_integral_Ioc]
  rw [MeasureTheory.ofReal_integral_eq_lintegral_ofReal]
  · exact (hg.sub hf).integrableOn_Icc
  · exact (MeasureTheory.ae_restrict_iff' measurableSet_Icc).2
      (Filter.Eventually.of_forall (fun x hx => sub_nonneg.2 (hfg x hx)))

theorem inThreeDisks_of_between {x y : ℝ} (hx1 : 1 ≤ x) (hx2 : x ≤ 2)
    (hlo : 2 - √(5 / 4 - (x - 3 / 2) ^ 2) ≤ y) (hhi : y ≤ 1 + √(1 - (x - 1) ^ 2)) :
    InThreeDisks (x, y) := by
  have hu : 0 ≤ 1 - (x - 1) ^ 2 := by nlinarith
  have hv : 0 ≤ 5 / 4 - (x - 3 / 2) ^ 2 := by nlinarith
  have hsu := Real.sq_sqrt hu
  have hsv := Real.sq_sqrt hv
  have hu0 := Real.sqrt_nonneg (1 - (x - 1) ^ 2)
  have hv0 := Real.sqrt_nonneg (5 / 4 - (x - 3 / 2) ^ 2)
  have hu1 : √(1 - (x - 1) ^ 2) ≤ 1 := Real.sqrt_le_iff.2 ⟨by norm_num, by nlinarith⟩
  have hy2 : 0 ≤ 2 - y := by linarith
  have hB : (x - 3 / 2) ^ 2 + (y - 2) ^ 2 ≤ 5 / 4 := by
    nlinarith [mul_nonneg (sub_nonneg.2 (show 2 - y ≤ √(5 / 4 - (x - 3 / 2) ^ 2) by linarith))
      (add_nonneg hv0 hy2)]
  refine ⟨?_, hB, ?_⟩
  · rcases le_total y 1 with h | h
    · linarith
    · have hy1 : 0 ≤ y - 1 := by linarith
      nlinarith [mul_nonneg (sub_nonneg.2 (show y - 1 ≤ √(1 - (x - 1) ^ 2) by linarith))
        (add_nonneg hu0 hy1)]
  · rcases le_total y 1 with h | h
    · linarith
    · nlinarith [mul_nonneg (sub_nonneg.2 hx1) (sub_nonneg.2 hx2),
        mul_nonneg (sub_nonneg.2 h) hy2]

theorem between_of_inThreeDisks {x y : ℝ} (h : InThreeDisks (x, y)) :
    x ≤ 2 ∧ 2 - √(5 / 4 - (x - 3 / 2) ^ 2) ≤ y ∧ y ≤ 1 + √(1 - (x - 1) ^ 2) := by
  obtain ⟨hA, hB, hC⟩ := h
  simp only at hA hB hC
  refine ⟨by nlinarith [sq_nonneg (y - 1)], ?_, ?_⟩
  · have := Real.abs_le_sqrt (show (y - 2) ^ 2 ≤ 5 / 4 - (x - 3 / 2) ^ 2 by linarith)
    have := (abs_le.1 this).1
    linarith
  · have := Real.abs_le_sqrt (show (y - 1) ^ 2 ≤ 1 - (x - 1) ^ 2 by linarith)
    have := (abs_le.1 this).2
    linarith

theorem inThreeDisks_swap {q : ℝ × ℝ} : InThreeDisks q.swap ↔ InThreeDisks q := by
  simp only [InThreeDisks, Prod.fst_swap, Prod.snd_swap]
  constructor <;> rintro ⟨a, b, c⟩ <;> exact ⟨by linarith, by linarith, by linarith⟩

theorem inThreeDisks_corner {x y : ℝ} (h : InThreeDisks (x, y)) : 1 ≤ x ∨ 1 < y := by
  obtain ⟨hA, hB, hC⟩ := h
  simp only at hA hB hC
  by_contra hcon
  push_neg at hcon
  nlinarith [hcon.1, hcon.2, mul_pos (sub_pos.2 hcon.1) (sub_pos.2 hcon.1)]

theorem one_le_sqrt_cap {x : ℝ} (hx1 : 1 ≤ x) (hx2 : x ≤ 2) :
    1 ≤ √(5 / 4 - (x - 3 / 2) ^ 2) := by
  rw [Real.le_sqrt' (by norm_num)]
  nlinarith

/-- The part of the intersection right of the line `x = 1`. -/
theorem volume_right_part :
    MeasureTheory.volume {q : ℝ × ℝ | InThreeDisks q ∧ 1 < q.1} =
      ENNReal.ofReal (Real.pi / 4 + (1 / 2 + 5 / 4 * Real.arctan 2⁻¹) - 1) := by
  have hset : {q : ℝ × ℝ | InThreeDisks q ∧ 1 < q.1} =
      {p : ℝ × ℝ | p.1 ∈ Set.Ioc (1 : ℝ) 2 ∧
        p.2 ∈ Set.Icc (2 - √(5 / 4 - (p.1 - 3 / 2) ^ 2)) (1 + √(1 - (p.1 - 1) ^ 2))} := by
    ext ⟨x, y⟩
    simp only [Set.mem_setOf_eq, Set.mem_Ioc, Set.mem_Icc]
    constructor
    · rintro ⟨h, hx⟩
      obtain ⟨h2, hlo, hhi⟩ := between_of_inThreeDisks h
      exact ⟨⟨hx, h2⟩, hlo, hhi⟩
    · rintro ⟨⟨hx, h2⟩, hlo, hhi⟩
      exact ⟨inThreeDisks_of_between hx.le h2 hlo hhi, hx⟩
  have hfg : ∀ x ∈ Set.Ioc (1 : ℝ) 2,
      2 - √(5 / 4 - (x - 3 / 2) ^ 2) ≤ 1 + √(1 - (x - 1) ^ 2) := by
    intro x hx
    have := one_le_sqrt_cap hx.1.le hx.2
    have := Real.sqrt_nonneg (1 - (x - 1) ^ 2)
    linarith
  have key := volume_between_graphs_Ioc (fun x : ℝ => 2 - √(5 / 4 - (x - 3 / 2) ^ 2))
    (fun x : ℝ => 1 + √(1 - (x - 1) ^ 2)) (by fun_prop) (by fun_prop)
    (show (1 : ℝ) ≤ 2 by norm_num) hfg
  rw [hset]
  refine key.trans ?_
  · congr 1
    have e : ∀ x : ℝ, 1 + √(1 - (x - 1) ^ 2) - (2 - √(5 / 4 - (x - 3 / 2) ^ 2)) =
        √(1 - (x - 1) ^ 2) + √(5 / 4 - (x - 3 / 2) ^ 2) - 1 := fun x => by ring
    simp_rw [e]
    rw [intervalIntegral.integral_sub, intervalIntegral.integral_add, integral_quarter_disk,
      integral_cap]
    · simp
      norm_num
    · exact Continuous.intervalIntegrable (by fun_prop) _ _
    · exact Continuous.intervalIntegrable (by fun_prop) _ _
    · exact Continuous.intervalIntegrable (by fun_prop) _ _
    · exact Continuous.intervalIntegrable (by fun_prop) _ _

/-- The part of the intersection on or below the line `y = 1`. -/
theorem volume_lower_part :
    MeasureTheory.volume {q : ℝ × ℝ | InThreeDisks q ∧ q.2 ≤ 1} =
      ENNReal.ofReal ((1 / 2 + 5 / 4 * Real.arctan 2⁻¹) - 1) := by
  have hset : {q : ℝ × ℝ | InThreeDisks q ∧ q.2 ≤ 1} =
      {p : ℝ × ℝ | p.1 ∈ Set.Icc (1 : ℝ) 2 ∧
        p.2 ∈ Set.Icc (2 - √(5 / 4 - (p.1 - 3 / 2) ^ 2)) ((fun _ : ℝ => (1 : ℝ)) p.1)} := by
    ext ⟨x, y⟩
    simp only [Set.mem_setOf_eq, Set.mem_Icc]
    constructor
    · rintro ⟨h, hy⟩
      obtain ⟨h2, hlo, -⟩ := between_of_inThreeDisks h
      rcases inThreeDisks_corner h with h1 | h1
      · exact ⟨⟨h1, h2⟩, hlo, hy⟩
      · exact absurd hy (not_le.2 h1)
    · rintro ⟨⟨hx, h2⟩, hlo, hy⟩
      refine ⟨inThreeDisks_of_between hx h2 hlo ?_, hy⟩
      have := Real.sqrt_nonneg (1 - (x - 1) ^ 2)
      linarith
  have hfg : ∀ x ∈ Set.Icc (1 : ℝ) 2, 2 - √(5 / 4 - (x - 3 / 2) ^ 2) ≤ (1 : ℝ) := by
    intro x hx
    have := one_le_sqrt_cap hx.1 hx.2
    linarith
  have key := volume_between_graphs_Icc (fun x : ℝ => 2 - √(5 / 4 - (x - 3 / 2) ^ 2))
    (fun _ : ℝ => (1 : ℝ)) (by fun_prop) (by fun_prop) (show (1 : ℝ) ≤ 2 by norm_num) hfg
  rw [hset]
  refine key.trans ?_
  · congr 1
    have e : ∀ x : ℝ, (1 : ℝ) - (2 - √(5 / 4 - (x - 3 / 2) ^ 2)) =
        √(5 / 4 - (x - 3 / 2) ^ 2) - 1 := fun x => by ring
    simp_rw [e]
    rw [intervalIntegral.integral_sub, integral_cap]
    · simp
      norm_num
    · exact Continuous.intervalIntegrable (by fun_prop) _ _
    · exact Continuous.intervalIntegrable (by fun_prop) _ _

/-- The area of the intersection of the three closed disks. -/
theorem volume_inThreeDisks :
    MeasureTheory.volume {q : ℝ × ℝ | InThreeDisks q} =
      ENNReal.ofReal (Real.pi / 4 + 5 / 2 * Real.arctan 2⁻¹ - 1) := by
  have hsplit : {q : ℝ × ℝ | InThreeDisks q} =
      {q : ℝ × ℝ | InThreeDisks q ∧ 1 < q.1} ∪
        Set.preimage Prod.swap {q : ℝ × ℝ | InThreeDisks q ∧ q.2 ≤ 1} := by
    ext q
    simp only [Set.mem_setOf_eq, Set.mem_union, Set.mem_preimage, inThreeDisks_swap,
      Prod.snd_swap]
    constructor
    · intro h
      rcases lt_or_le 1 q.1 with h1 | h1
      · exact Or.inl ⟨h, h1⟩
      · exact Or.inr ⟨h, h1⟩
    · rintro (h | h) <;> exact h.1
  have hmeasL : MeasurableSet {q : ℝ × ℝ | InThreeDisks q ∧ q.2 ≤ 1} := by
    have hA : MeasurableSet {q : ℝ × ℝ | (q.1 - 1) ^ 2 + (q.2 - 1) ^ 2 ≤ 1} :=
      (isClosed_le (by fun_prop) (by fun_prop)).measurableSet
    have hB : MeasurableSet {q : ℝ × ℝ | (q.1 - 3 / 2) ^ 2 + (q.2 - 2) ^ 2 ≤ 5 / 4} :=
      (isClosed_le (by fun_prop) (by fun_prop)).measurableSet
    have hC : MeasurableSet {q : ℝ × ℝ | (q.1 - 2) ^ 2 + (q.2 - 3 / 2) ^ 2 ≤ 5 / 4} :=
      (isClosed_le (by fun_prop) (by fun_prop)).measurableSet
    exact ((hA.inter (hB.inter hC))).inter (measurableSet_le measurable_snd measurable_const)
  have hdisj : Disjoint {q : ℝ × ℝ | InThreeDisks q ∧ 1 < q.1}
      (Set.preimage Prod.swap {q : ℝ × ℝ | InThreeDisks q ∧ q.2 ≤ 1}) := by
    rw [Set.disjoint_left]
    rintro q ⟨-, h1⟩ ⟨-, h2⟩
    simp only [Prod.snd_swap] at h2
    exact absurd h2 (not_le.2 h1)
  have hswap : MeasureTheory.volume
      (Set.preimage Prod.swap {q : ℝ × ℝ | InThreeDisks q ∧ q.2 ≤ 1}) =
      MeasureTheory.volume {q : ℝ × ℝ | InThreeDisks q ∧ q.2 ≤ 1} :=
    (@MeasureTheory.Measure.measurePreserving_swap ℝ ℝ _ _ MeasureTheory.volume
      MeasureTheory.volume _ _).measure_preimage hmeasL.nullMeasurableSet
  have hpos : (0 : ℝ) ≤ (1 / 2 + 5 / 4 * Real.arctan 2⁻¹) - 1 := by
    have h3 := Real.arctan_inv_2_add_arctan_inv_3
    have hb := arctan_inv_3_bounds.2
    have hpi := Real.pi_gt_d2
    norm_num at hb hpi
    linarith
  rw [hsplit, MeasureTheory.measure_union hdisj (measurable_swap hmeasL), hswap,
    volume_right_part, volume_lower_part, ← ENNReal.ofReal_add]
  · congr 1; ring
  · have := Real.pi_pos; linarith
  · exact hpos

/-- With the real `pi` and arcsine, the reference value is
`pi / 4 + 5/2 * arctan (1/2) - 1`. -/
theorem calculateExactArea_real_eq_arctan_half :
    calculateExactArea (Cmath.mk Real.pi Real.arcsin Real.sqrt abs) =
      Real.pi / 4 + 5 / 2 * Real.arctan 2⁻¹ - 1 := by
  simp only [calculateExactArea, arcsin_four_fifths_eq_two_arctan]
  norm_num
  ring

/-! ## The sweep (helper lemmas for C11, C12, C13, C17) -/

/-- The sweep loop from `N` on, when exactly `k` values `N, N + 500, ...` are
at most `100000`: one iteration per value, in order. -/
theorem sweepFrom_eq_map {D G : Type} [Add D] [Sub D] [Mul D] [Div D] [LE D]
    [∀ a b : D, Decidable (a ≤ b)] [IntCast D] [OfScientific D]
    (R : Random D G) (m : Cmath D) (k : Nat) :
    ∀ N : Int, 100000 < N + 500 * (k : Int) → N + 500 * (k : Int) ≤ 100000 + 500 →
      sweepFrom R m N =
        (List.range k).map (fun i : Nat => sweepBody R m (N + 500 * (i : Int))) := by
  induction k with
  | zero =>
    intro N h1 _
    rw [sweepFrom, if_neg (by omega)]
    rfl
  | succ k ih =>
    intro N h1 h2
    rw [sweepFrom, if_pos (by omega), ih (N + 500) (by omega) (by omega),
      List.range_succ_eq_map, List.map_cons, List.map_map]
    congr 1
    · simp
    · apply List.map_congr_left
      intro i _
      simp only [Function.comp_apply]
      congr 1
      push_cast
      ring

/-- The sweep of `runExperiment`: the iterations for `N = 100 + 500 * k`,
`k = 0, ..., 199`, in this order. -/
theorem runExperiment_eq_map {D G : Type} [Add D] [Sub D] [Mul D] [Div D] [LE D]
    [∀ a b : D, Decidable (a ≤ b)] [IntCast D] [OfScientific D]
    (R : Random D G) (m : Cmath D) :
    runExperiment R m =
      (List.range 200).map (fun i : Nat => sweepBody R m (100 + 500 * (i : Int))) :=
  sweepFrom_eq_map R m 200 100 (by norm_num) (by norm_num)

/-- No value `100 + 500 * k` is a multiple of `10000`. -/
theorem sweep_value_tmod_ne_zero (k : Nat) : Int.tmod (100 + 500 * (k : Int)) 10000 ≠ 0 := by
  rw [Int.tmod_eq_emod (by omega) (by norm_num)]
  omega

/-! ## Helper lemmas on the counter and on the storage of the generator -/

/-- The number of accepted points among the first `n` drawn is at most `n`. -/
theorem countP_sampledPoints_le {D G : Type} [Add D] [Sub D] [Mul D] [LE D]
    [∀ a b : D, Decidable (a ≤ b)] (R : Random D G) (cs : List (Circle D))
    (x_min x_max y_min y_max : D) (n : Nat) (gen : G) :
    (sampledPoints R x_min x_max y_min y_max n gen).countP
      (fun p => isPointInIntersection p cs) ≤ n :=
  (List.countP_le_length _).trans_eq (sampledPoints_length R x_min x_max y_min y_max n gen)

/-- The loop alone does depend on the generator it starts from: on the
stand-in generator, one iteration from state `0` accepts its point and one
iteration from state `8` does not. -/
theorem monteCarloLoop_depends_on_generator :
    monteCarloLoop lcg [Circle.mk (Point.mk 0 0) 1] 0 3 0 3 1 0 0 = 1 ∧
    monteCarloLoop lcg [Circle.mk (Point.mk 0 0) 1] 0 3 0 3 1 8 0 = 0 := by
  constructor
  · simp [monteCarloLoop, drawPoint, lcg, isPointInIntersection, isPointInCircle]
    norm_num
  · simp [monteCarloLoop, drawPoint, lcg, isPointInIntersection, isPointInCircle]
    norm_num

/-! ## The arithmetic of `double` (helper lemmas for C2, C16, C18) -/

/-- Zero has no binary digit. -/
theorem F64.bitLenAux_zero (fuel : Nat) : F64.bitLenAux fuel 0 = 0 := by
  cases fuel <;> simp [F64.bitLenAux]

/-- With enough fuel the count `L` of binary digits of `n > 0` satisfies
`2^(L-1) <= n < 2^L`. -/
theorem F64.bitLenAux_spec : ∀ (fuel n : Nat), 0 < n → n ≤ fuel →
    2 ^ (F64.bitLenAux fuel n - 1) ≤ n ∧ n < 2 ^ F64.bitLenAux fuel n := by
  intro fuel
  induction fuel with
  | zero => intro n h1 h2; omega
  | succ fuel ih =>
    intro n h1 h2
    rw [F64.bitLenAux, if_neg (by omega)]
    split
    · rename_i h64
      have hpos : 0 < n / 2 ^ 64 := Nat.div_pos h64 (by positivity)
      have hlt : n / 2 ^ 64 < n := Nat.div_lt_self h1 (by norm_num)
      obtain ⟨a, b⟩ := ih (n / 2 ^ 64) hpos (by omega)
      have hL : 0 < F64.bitLenAux fuel (n / 2 ^ 64) := by
        by_contra h0
        have : F64.bitLenAux fuel (n / 2 ^ 64) = 0 := by omega
        rw [this] at b
        omega
      constructor
      · have : F64.bitLenAux fuel (n / 2 ^ 64) + 64 - 1 =
            (F64.bitLenAux fuel (n / 2 ^ 64) - 1) + 64 := by omega
        rw [this, pow_add]
        exact (Nat.le_div_iff_mul_le (by positivity)).1 a
      · rw [pow_add]
        exact (Nat.div_lt_iff_lt_mul (by positivity)).1 b
    · rcases Nat.eq_zero_or_pos (n / 2) with h0 | hpos
      · have hn : n = 1 := by omega
        subst hn
        simp [F64.bitLenAux_zero]
      · have hlt : n / 2 < n := Nat.div_lt_self h1 (by norm_num)
        obtain ⟨a, b⟩ := ih (n / 2) hpos (by omega)
        have hL : 0 < F64.bitLenAux fuel (n / 2) := by
          by_contra h0
          have : F64.bitLenAux fuel (n / 2) = 0 := by omega
          rw [this] at b
          omega
        constructor
        · have : F64.bitLenAux fuel (n / 2) + 1 - 1 = (F64.bitLenAux fuel (n / 2) - 1) + 1 := by
            omega
          rw [this, pow_succ]
          omega
        · rw [pow_succ]
          omega

/-- The count `L = F64.bitLen n` of binary digits of `n > 0` satisfies
`2^(L-1) <= n < 2^L`. -/
theorem F64.bitLen_spec (n : Nat) (h : 0 < n) :
    2 ^ (F64.bitLen n - 1) ≤ n ∧ n < 2 ^ F64.bitLen n :=
  F64.bitLenAux_spec n n h le_rfl

/-- A positive number has at least one binary digit. -/
theorem F64.bitLen_pos (n : Nat) (h : 0 < n) : 0 < F64.bitLen n := by
  by_contra h0
  have h1 : F64.bitLen n = 0 := by omega
  have := (F64.bitLen_spec n h).2
  rw [h1] at this
  omega

/-- For `a <= b`, `2^b = 2^a * 2^(b-a)` with a natural-number power. -/
theorem F64.two_zpow_split (a b : Int) (h : a ≤ b) :
    (2 : ℚ) ^ b = 2 ^ a * ((2 ^ (b - a).toNat : Nat) : ℚ) := by
  have hb : b = a + ((b - a).toNat : Int) := by omega
  conv_lhs => rw [hb]
  rw [zpow_add₀ (by norm_num), zpow_natCast]
  push_cast
  rfl

/-- The two branches of `F64.round` for `M > 0`: the exponent `e1` of the grid,
the integer `m` chosen on that grid (before a carry to `2^53` is renormalised),
how `m` comes from `M`, and the value returned. -/
theorem F64.round_cases (neg : Bool) (M : Nat) (E : Int) (st : Bool) (hM : 0 < M) :
    ∃ (e1 : Int) (m : Nat), e1 = max (E + (F64.bitLen M : Int) - 53) (-1074) ∧
      m ≤ 2 ^ 53 ∧ (e1 ≠ -1074 → 2 ^ 52 ≤ m) ∧
      ((e1 ≤ E ∧ m = M * 2 ^ (E - e1).toNat) ∨
        (E < e1 ∧ ∃ q r h : Nat, 1 ≤ h ∧ 2 ^ (e1 - E).toNat = 2 * h ∧
          M = q * (2 * h) + r ∧ r < 2 * h ∧
          ((m = q + 1 ∧ (h < r ∨ (r = h ∧ (st = true ∨ q % 2 = 1)))) ∨
           (m = q ∧ (r < h ∨ (r = h ∧ st = false ∧ q % 2 = 0)))))) ∧
      F64.round neg M E st =
        if 971 < e1 ∨ (m = 2 ^ 53 ∧ e1 = 971) then F64.inf neg
        else if m = 2 ^ 53 then F64.fin neg (2 ^ 52) (e1 + 1) else F64.fin neg m e1 := by
  have hL := F64.bitLen_spec M hM
  have hLpos := F64.bitLen_pos M hM
  obtain ⟨e1, he1⟩ : ∃ e1 : Int, e1 = max (E + (F64.bitLen M : Int) - 53) (-1074) := ⟨_, rfl⟩
  have he1lo : -1074 ≤ e1 := by rw [he1]; exact le_max_right _ _
  have he1L : E + (F64.bitLen M : Int) - 53 ≤ e1 := by rw [he1]; exact le_max_left _ _
  have he1or : e1 = E + (F64.bitLen M : Int) - 53 ∨ e1 = -1074 := by
    rw [he1]; exact max_choice _ _
  rw [F64.round, if_neg (by omega)]
  simp only [← he1]
  by_cases hexact : e1 ≤ E
  · have hm53 : M * 2 ^ (E - e1).toNat < 2 ^ 53 := by
      calc M * 2 ^ (E - e1).toNat < 2 ^ F64.bitLen M * 2 ^ (E - e1).toNat :=
            Nat.mul_lt_mul_of_pos_right hL.2 (by positivity)
        _ = 2 ^ (F64.bitLen M + (E - e1).toNat) := (pow_add _ _ _).symm
        _ ≤ 2 ^ 53 := Nat.pow_le_pow_right (by norm_num) (by omega)
    refine ⟨e1, M * 2 ^ (E - e1).toNat, rfl, hm53.le, ?_, Or.inl ⟨hexact, rfl⟩, ?_⟩
    · intro hne
      have hs : (F64.bitLen M - 1) + (E - e1).toNat = 52 := by omega
      calc 2 ^ 52 = 2 ^ (F64.bitLen M - 1) * 2 ^ (E - e1).toNat := by
            rw [← pow_add, hs]
        _ ≤ M * 2 ^ (E - e1).toNat := Nat.mul_le_mul_right _ hL.1
    · rw [if_pos hexact]
      have hne : M * 2 ^ (E - e1).toNat ≠ 2 ^ 53 := by omega
      by_cases h971 : 971 < e1
      · rw [if_pos h971, if_pos (Or.inl h971)]
      · rw [if_neg h971, if_neg (by rintro (h | ⟨h, -⟩) <;> [exact h971 h; exact hne h]),
          if_neg hne]
  · obtain ⟨s, hs⟩ : ∃ s : Nat, s = (e1 - E).toNat := ⟨_, rfl⟩
    have hs1 : 1 ≤ s := by omega
    rw [if_neg hexact]
    simp only [← hs]
    have hdm := Nat.div_add_mod M (2 ^ s)
    have hq53 : M / 2 ^ s < 2 ^ 53 := by
      rw [Nat.div_lt_iff_lt_mul (by positivity), ← pow_add]
      exact lt_of_lt_of_le hL.2 (Nat.pow_le_pow_right (by norm_num) (by omega))
    have hq52 : e1 ≠ -1074 → 2 ^ 52 ≤ M / 2 ^ s := by
      intro hne
      rw [Nat.le_div_iff_mul_le (by positivity), ← pow_add]
      have : 52 + s = F64.bitLen M - 1 := by omega
      rw [this]
      exact hL.1
    have h2s : 2 ^ s = 2 * 2 ^ (s - 1) := by
      conv_lhs => rw [show s = (s - 1) + 1 by omega]
      rw [pow_succ]
      ring
    have hh : 1 ≤ 2 ^ (s - 1) := Nat.one_le_two_pow
    have hrlt : M % 2 ^ s < 2 * 2 ^ (s - 1) := by
      rw [← h2s]
      exact Nat.mod_lt _ (by positivity)
    generalize hup : (decide (2 ^ (s - 1) < M % 2 ^ s) ||
      decide (M % 2 ^ s = 2 ^ (s - 1)) && (st || decide (M / 2 ^ s % 2 = 1))) = up
    obtain ⟨m, hm⟩ : ∃ m : Nat, m = if up = true then M / 2 ^ s + 1 else M / 2 ^ s := ⟨_, rfl⟩
    simp only [← hm]
    have hm53 : m ≤ 2 ^ 53 := by
      rw [hm]
      split <;> omega
    have hm52 : e1 ≠ -1074 → 2 ^ 52 ≤ m := by
      intro hne
      have := hq52 hne
      rw [hm]
      split <;> omega
    refine ⟨e1, m, rfl, hm53, hm52, Or.inr ⟨by omega, M / 2 ^ s, M % 2 ^ s, 2 ^ (s - 1), hh,
      hs ▸ h2s, ?_, hrlt, ?_⟩, ?_⟩
    · rw [← h2s, Nat.mul_comm]
      exact hdm.symm
    · cases up
      · right
        refine ⟨by simpa using hm, ?_⟩
        simp only [Bool.or_eq_false_iff, Bool.and_eq_false_iff, decide_eq_false_iff_not,
          Bool.or_eq_false_iff] at hup
        obtain ⟨h1, h2⟩ := hup
        rcases Nat.lt_or_ge (M % 2 ^ s) (2 ^ (s - 1)) with hlt | hge
        · exact Or.inl hlt
        · have heq : M % 2 ^ s = 2 ^ (s - 1) := by omega
          rcases h2 with h2 | ⟨h2, h3⟩
          · exact absurd heq h2
          · exact Or.inr ⟨heq, h2, by omega⟩
      · left
        refine ⟨by simpa using hm, ?_⟩
        simp only [Bool.or_eq_true, Bool.and_eq_true, decide_eq_true_eq] at hup
        rcases hup with h | ⟨h, h2⟩
        · exact Or.inl h
        · exact Or.inr ⟨h, h2⟩
    · by_cases hcarry : m = 2 ^ 53
      · rw [if_pos hcarry, if_pos hcarry]
        by_cases h971 : 971 < e1 + 1
        · rw [if_pos h971, if_pos (by omega)]
        · rw [if_neg h971, if_neg (by omega), if_pos hcarry]
      · rw [if_neg hcarry, if_neg hcarry]
        by_cases h971 : 971 < e1
        · rw [if_pos h971, if_pos (Or.inl h971)]
        · rw [if_neg h971, if_neg (by omega), if_neg hcarry]

/-- Round to nearest is monotone. -/
theorem F64.Nearest.mono {x y : ℚ} {m n : Nat} {e f : Int} (hx : F64.Nearest x m e)
    (hy : F64.Nearest y n f) (hxy : x ≤ y) : (m : ℚ) * 2 ^ e ≤ (n : ℚ) * 2 ^ f := by
  obtain ⟨he, hx1, hx2, hx3, hx4, hx5, hx6⟩ := hx
  obtain ⟨hf, hy1, hy2, hy3, hy4, hy5, hy6⟩ := hy
  have hp : (0 : ℚ) < 2 ^ e := by positivity
  have hq : (0 : ℚ) < 2 ^ f := by positivity
  rcases lt_trichotomy e f with hlt | heq | hgt
  · have hy1 : (2 : ℚ) ^ 52 * 2 ^ f ≤ y := by
      rcases hy1 with h | h
      · omega
      · exact h
    have hpq : (2 : ℚ) * 2 ^ e ≤ 2 ^ f := by
      have : (2 : ℚ) * 2 ^ e = 2 ^ (e + 1) := by
        rw [zpow_add₀ (by norm_num), zpow_one]; ring
      rw [this]
      exact zpow_le_zpow_right₀ (by norm_num) (by omega)
    have hn : (2 : ℚ) ^ 52 ≤ (n : ℚ) := by
      have h1 : (2 : ℚ) ^ 53 * 2 ^ f < (2 * (n : ℚ) + 2) * 2 ^ f := by linarith
      have h2 : (2 : ℚ) ^ 53 < 2 * (n : ℚ) + 2 := lt_of_mul_lt_mul_right h1 hq.le
      have h3 : 2 ^ 53 < 2 * n + 2 := by exact_mod_cast h2
      have h4 : 2 ^ 52 ≤ n := by omega
      exact_mod_cast h4
    have hm : (m : ℚ) ≤ 2 ^ 53 := by
      have h1 : 2 * (m : ℚ) * 2 ^ e < (2 ^ 54 + 1) * 2 ^ e := by linarith
      have h2 : 2 * (m : ℚ) < 2 ^ 54 + 1 := lt_of_mul_lt_mul_right h1 hp.le
      have h3 : 2 * m < 2 ^ 54 + 1 := by exact_mod_cast h2
      have h4 : m ≤ 2 ^ 53 := by omega
      exact_mod_cast h4
    calc (m : ℚ) * 2 ^ e ≤ 2 ^ 53 * 2 ^ e := by gcongr
      _ = 2 ^ 52 * (2 * 2 ^ e) := by ring
      _ ≤ 2 ^ 52 * 2 ^ f := by gcongr
      _ ≤ (n : ℚ) * 2 ^ f := by gcongr
  · subst heq
    by_contra hcon
    push_neg at hcon
    have hnm : (n : ℚ) < m := lt_of_mul_lt_mul_right hcon hp.le
    have hnm2 : n + 1 ≤ m := by exact_mod_cast hnm
    have hnm3 : (n : ℚ) + 1 ≤ m := by exact_mod_cast hnm2
    have h1 : (m : ℚ) * 2 ^ e ≤ ((n : ℚ) + 1) * 2 ^ e := by linarith
    have h2 : (m : ℚ) ≤ (n : ℚ) + 1 := le_of_mul_le_mul_right h1 hp
    have h3 : (m : ℚ) = n + 1 := le_antisymm h2 hnm3
    have h4 : m = n + 1 := by exact_mod_cast h3
    have h5 : 2 * y = (2 * (n : ℚ) + 1) * 2 ^ e := by
      rw [h3] at hx3
      linarith
    have h6 : 2 * x + 2 ^ e = 2 * (m : ℚ) * 2 ^ e := by
      rw [h3] at hx3 ⊢
      linarith
    have := hy5 h5
    have := hx6 h6
    omega
  · exfalso
    have hx1 : (2 : ℚ) ^ 52 * 2 ^ e ≤ x := by
      rcases hx1 with h | h
      · omega
      · exact h
    have hpq : (2 : ℚ) * 2 ^ f ≤ 2 ^ e := by
      have : (2 : ℚ) * 2 ^ f = 2 ^ (f + 1) := by
        rw [zpow_add₀ (by norm_num), zpow_one]; ring
      rw [this]
      exact zpow_le_zpow_right₀ (by norm_num) (by omega)
    linarith

/-- What `F64.round` returns for `M > 0` is the nearest value of the format to
the exact value `x`, ties to even: `x` is `M * 2^E` when `sticky` is unset, and
lies strictly between `M * 2^E` and `(M + 1) * 2^E`, with `M` of more than 53
digits, when it is set. -/
theorem F64.round_nearest (neg : Bool) (M : Nat) (E : Int) (st : Bool) (x : ℚ) (hM : 0 < M)
    (hx : (st = false ∧ x = (M : ℚ) * 2 ^ E) ∨
      (st = true ∧ 53 < F64.bitLen M ∧ (M : ℚ) * 2 ^ E < x ∧ x < ((M : ℚ) + 1) * 2 ^ E)) :
    ∃ (e1 : Int) (m : Nat), F64.Nearest x m e1 ∧ m ≤ 2 ^ 53 ∧ (e1 ≠ -1074 → 2 ^ 52 ≤ m) ∧
      F64.round neg M E st =
        if 971 < e1 ∨ (m = 2 ^ 53 ∧ e1 = 971) then F64.inf neg
        else if m = 2 ^ 53 then F64.fin neg (2 ^ 52) (e1 + 1) else F64.fin neg m e1 := by
  obtain ⟨e1, m, he1, hm53, hm52, hbr, hout⟩ := F64.round_cases neg M E st hM
  refine ⟨e1, m, ?_, hm53, hm52, hout⟩
  have hL := F64.bitLen_spec M hM
  have hLpos := F64.bitLen_pos M hM
  have he1lo : -1074 ≤ e1 := by rw [he1]; exact le_max_right _ _
  have he1L : E + (F64.bitLen M : Int) - 53 ≤ e1 := by rw [he1]; exact le_max_left _ _
  have he1or : e1 = E + (F64.bitLen M : Int) - 53 ∨ e1 = -1074 := by
    rw [he1]; exact max_choice _ _
  have hp : (0 : ℚ) < 2 ^ E := by positivity
  have hP : (0 : ℚ) < 2 ^ e1 := by positivity
  have hxlo : (M : ℚ) * 2 ^ E ≤ x := by
    rcases hx with ⟨-, h⟩ | ⟨-, -, h, -⟩
    · exact h.ge
    · exact h.le
  have hxhi : x < ((M : ℚ) + 1) * 2 ^ E := by
    rcases hx with ⟨-, h⟩ | ⟨-, -, -, h⟩
    · rw [h]; nlinarith
    · exact h
  have h1 : e1 = -1074 ∨ (2 : ℚ) ^ 52 * 2 ^ e1 ≤ x := by
    rcases he1or with h | h
    · right
      calc (2 : ℚ) ^ 52 * 2 ^ e1 = 2 ^ ((F64.bitLen M - 1 : Nat)) * 2 ^ E := by
            rw [← zpow_natCast, ← zpow_natCast, ← zpow_add₀ (by norm_num),
              ← zpow_add₀ (by norm_num)]
            congr 1
            push_cast
            omega
        _ ≤ (M : ℚ) * 2 ^ E := by
            gcongr
            exact_mod_cast hL.1
        _ ≤ x := hxlo
    · exact Or.inl h
  have h2 : x < 2 ^ 53 * 2 ^ e1 := by
    calc x < ((M : ℚ) + 1) * 2 ^ E := hxhi
      _ ≤ 2 ^ (F64.bitLen M) * 2 ^ E := by
          gcongr
          have : M + 1 ≤ 2 ^ F64.bitLen M := hL.2
          exact_mod_cast this
      _ = 2 ^ ((F64.bitLen M : Int) + E) := by
          rw [zpow_add₀ (by norm_num), zpow_natCast]
      _ ≤ 2 ^ ((53 : Int) + e1) := zpow_le_zpow_right₀ (by norm_num) (by omega)
      _ = 2 ^ 53 * 2 ^ e1 := by
          rw [zpow_add₀ (by norm_num)]
          norm_num
  refine ⟨he1lo, h1, h2, ?_⟩
  rcases hbr with ⟨hexact, hm⟩ | ⟨hround, q, r, h, hh, h2h, hMqr, hr, hm⟩
  · have hst : x = (M : ℚ) * 2 ^ E := by
      rcases hx with ⟨-, h⟩ | ⟨-, h, -, -⟩
      · exact h
      · omega
    have hxm : x = (m : ℚ) * 2 ^ e1 := by
      rw [hst, hm, F64.two_zpow_split e1 E hexact]
      push_cast
      ring
    rw [hxm]
    refine ⟨by linarith, by linarith, ?_, ?_⟩
    · intro h
      exfalso
      linarith
    · intro h
      exfalso
      linarith
  · obtain ⟨t, ht⟩ : ∃ t : ℚ, x = t * 2 ^ E := ⟨x / 2 ^ E, by field_simp⟩
    have hPp : (2 : ℚ) ^ e1 = 2 ^ E * (2 * (h : ℚ)) := by
      rw [F64.two_zpow_split E e1 hround.le, h2h]
      push_cast
      rfl
    have hMq : (M : ℚ) = (q : ℚ) * (2 * (h : ℚ)) + (r : ℚ) := by exact_mod_cast hMqr
    have hhQ : (1 : ℚ) ≤ (h : ℚ) := by exact_mod_cast hh
    have hrQ : (r : ℚ) + 1 ≤ 2 * (h : ℚ) := by exact_mod_cast hr
    have hr0 : (0 : ℚ) ≤ (r : ℚ) := Nat.cast_nonneg r
    have hq0 : (0 : ℚ) ≤ (q : ℚ) := Nat.cast_nonneg q
    have htlo : (M : ℚ) ≤ t := by
      rw [ht] at hxlo
      exact le_of_mul_le_mul_right hxlo hp
    have hthi : t < (M : ℚ) + 1 := by
      rw [ht] at hxhi
      exact lt_of_mul_lt_mul_right hxhi hp.le
    have hstT : st = true → (M : ℚ) < t := by
      intro hs
      rcases hx with ⟨h, -⟩ | ⟨-, -, h, -⟩
      · rw [hs] at h; exact absurd h (by decide)
      · rw [ht] at h
        exact lt_of_mul_lt_mul_right h hp.le
    have hstF : st = false → t = (M : ℚ) := by
      intro hs
      rcases hx with ⟨-, h⟩ | ⟨h, -⟩
      · rw [ht] at h
        exact mul_right_cancel₀ hp.ne.symm h
      · rw [hs] at h; exact absurd h (by decide)
    have key : ∀ a b : ℚ, a ≤ b → a * 2 ^ E ≤ b * 2 ^ E := fun a b hab =>
      mul_le_mul_of_nonneg_right hab hp.le
    have keq : ∀ a b : ℚ, a * 2 ^ E = b * 2 ^ E → a = b := fun a b hab =>
      mul_right_cancel₀ hp.ne.symm hab
    rw [ht, hPp]
    rcases hm with ⟨hm, hup⟩ | ⟨hm, hdn⟩
    · have hmQ : (m : ℚ) = (q : ℚ) + 1 := by exact_mod_cast hm
      have hrh : (h : ℚ) ≤ (r : ℚ) := by
        rcases hup with h | ⟨h, -⟩
        · exact_mod_cast h.le
        · exact_mod_cast h.ge
      rw [hmQ]
      refine ⟨?_, ?_, ?_, ?_⟩
      · have := key (2 * ((q : ℚ) + 1) * (2 * (h : ℚ))) (2 * t + 2 * (h : ℚ)) (by linarith)
        linarith
      · have := key (2 * t) ((2 * ((q : ℚ) + 1) + 1) * (2 * (h : ℚ))) (by linarith)
        linarith
      · intro heq
        exfalso
        have := keq (2 * t) ((2 * ((q : ℚ) + 1) + 1) * (2 * (h : ℚ))) (by linarith)
        linarith
      · intro heq
        have h3 := keq (2 * t + 2 * (h : ℚ)) (2 * ((q : ℚ) + 1) * (2 * (h : ℚ))) (by linarith)
        have h4 : t = (M : ℚ) := by linarith
        have h5 : (r : ℚ) = (h : ℚ) := by linarith
        have h6 : r = h := by exact_mod_cast h5
        have h7 : st = false := by
          cases st
          · rfl
          · have := hstT rfl
            linarith
        rcases hup with h8 | ⟨-, h8 | h8⟩
        · omega
        · rw [h7] at h8; exact absurd h8 (by decide)
        · omega
    · have hmQ : (m : ℚ) = (q : ℚ) := by exact_mod_cast hm
      rw [hmQ]
      have hub : t ≤ (q : ℚ) * (2 * (h : ℚ)) + (h : ℚ) := by
        rcases hdn with h8 | ⟨h8, h9, -⟩
        · have : (r : ℚ) + 1 ≤ (h : ℚ) := by exact_mod_cast h8
          linarith
        · have : (r : ℚ) = (h : ℚ) := by exact_mod_cast h8
          have := hstF h9
          linarith
      refine ⟨?_, ?_, ?_, ?_⟩
      · have := key (2 * (q : ℚ) * (2 * (h : ℚ))) (2 * t + 2 * (h : ℚ)) (by linarith)
        linarith
      · have := key (2 * t) ((2 * (q : ℚ) + 1) * (2 * (h : ℚ))) (by linarith)
        linarith
      · intro heq
        have h3 := keq (2 * t) ((2 * (q : ℚ) + 1) * (2 * (h : ℚ))) (by linarith)
        rcases hdn with h8 | ⟨-, -, h8⟩
        · exfalso
          have : (r : ℚ) + 1 ≤ (h : ℚ) := by exact_mod_cast h8
          linarith
        · omega
      · intro heq
        exfalso
        have h3 := keq (2 * t + 2 * (h : ℚ)) (2 * (q : ℚ) * (2 * (h : ℚ))) (by linarith)
        linarith

/-- The value `0` is its own nearest value of the format. -/
theorem F64.nearest_zero : F64.Nearest 0 0 (-1074) := by
  have hp : (0 : ℚ) < 2 ^ (-1074 : Int) := by positivity
  refine ⟨le_rfl, Or.inl rfl, by positivity, ?_, ?_, ?_, ?_⟩
  · simp only [Nat.cast_zero, mul_zero, zero_mul, zero_add]
    exact hp.le
  · simp only [Nat.cast_zero, mul_zero, zero_add, one_mul]
    exact hp.le
  · intro h
    simp only [Nat.cast_zero, mul_zero, zero_add, one_mul] at h
    exact absurd h hp.ne
  · intro _
    rfl

/-- What `F64.round` returns: an infinity, or a finite value in the form of the
format whose exact value is the nearest one to the exact value `x` rounded. -/
theorem F64.round_spec (neg : Bool) (M : Nat) (E : Int) (st : Bool) (x : ℚ)
    (hx : (st = false ∧ x = (M : ℚ) * 2 ^ E) ∨
      (st = true ∧ 53 < F64.bitLen M ∧ (M : ℚ) * 2 ^ E < x ∧ x < ((M : ℚ) + 1) * 2 ^ E)) :
    ∃ (e0 : Int) (m0 : Nat), F64.Nearest x m0 e0 ∧
      ((F64.round neg M E st = F64.inf neg ∧ (2 : ℚ) ^ 53 * 2 ^ (971 : Int) ≤ (m0 : ℚ) * 2 ^ e0) ∨
        ∃ (m : Nat) (e : Int), F64.round neg M E st = F64.fin neg m e ∧ m < 2 ^ 53 ∧
          -1074 ≤ e ∧ e ≤ 971 ∧ (2 ^ 52 ≤ m ∨ e = -1074) ∧
          (m : ℚ) * 2 ^ e = (m0 : ℚ) * 2 ^ e0) := by
  rcases Nat.eq_zero_or_pos M with hM | hM
  · subst hM
    have hst : st = false ∧ x = 0 := by
      rcases hx with ⟨h1, h2⟩ | ⟨-, h, -, -⟩
      · exact ⟨h1, by simpa using h2⟩
      · simp [F64.bitLen, F64.bitLenAux] at h
    refine ⟨-1074, 0, hst.2 ▸ F64.nearest_zero, Or.inr ⟨0, -1074, by simp [F64.round],
      by norm_num, le_rfl, by norm_num, Or.inr rfl, rfl⟩⟩
  · obtain ⟨e1, m0, hN, h53, h52, hout⟩ := F64.round_nearest neg M E st x hM hx
    refine ⟨e1, m0, hN, ?_⟩
    have hlo : -1074 ≤ e1 := hN.1
    rw [hout]
    by_cases hinf : 971 < e1 ∨ (m0 = 2 ^ 53 ∧ e1 = 971)
    · refine Or.inl ⟨if_pos hinf, ?_⟩
      rcases hinf with h | ⟨h1, h2⟩
      · have hm : (2 : ℚ) ^ 52 ≤ (m0 : ℚ) := by exact_mod_cast h52 (by omega)
        have hz : (2 : ℚ) ^ (972 : Int) ≤ 2 ^ e1 := zpow_le_zpow_right₀ (by norm_num) (by omega)
        calc (2 : ℚ) ^ 53 * 2 ^ (971 : Int) = 2 ^ 52 * 2 ^ (972 : Int) := by
              rw [show (972 : Int) = 971 + 1 by norm_num, zpow_add₀ (by norm_num), zpow_one]
              ring
          _ ≤ (m0 : ℚ) * 2 ^ e1 := by gcongr
      · rw [h1, h2]
        push_cast
        exact le_rfl
    · right
      rw [if_neg hinf]
      by_cases hc : m0 = 2 ^ 53
      · refine ⟨2 ^ 52, e1 + 1, if_pos hc, by norm_num, by omega, by omega,
          Or.inl le_rfl, ?_⟩
        rw [hc, zpow_add₀ (by norm_num)]
        push_cast
        ring
      · refine ⟨m0, e1, if_neg hc, by omega, hlo, by omega, ?_, rfl⟩
        by_cases h : e1 = -1074
        · exact Or.inr h
        · exact Or.inl (h52 h)

/-- Bridge between the comparison of two finite values and the order of their
exact values. -/
theorem F64.le_fin_iff (a b : Bool) (m1 m2 : Nat) (e1 e2 : Int) :
    F64.le (F64.fin a m1 e1) (F64.fin b m2 e2) = true ↔
      F64.toRat (F64.fin a m1 e1) ≤ F64.toRat (F64.fin b m2 e2) := by
  have hs : ∀ (c : Bool) (n : Nat), ((F64.signed c n : Int) : ℚ) = (if c then -1 else 1) * n := by
    intro c n
    cases c <;> simp [F64.signed]
  have hv : ∀ (c : Bool) (m : Nat) (e e0 : Int), e0 ≤ e →
      F64.toRat (F64.fin c m e) = ((F64.signed c (m * 2 ^ (e - e0).toNat) : Int) : ℚ) * 2 ^ e0 := by
    intro c m e e0 h
    rw [hs, F64.toRat, F64.two_zpow_split e0 e h]
    push_cast
    ring
  rw [hv a m1 e1 (min e1 e2) (min_le_left _ _), hv b m2 e2 (min e1 e2) (min_le_right _ _)]
  have hp : (0 : ℚ) < 2 ^ (min e1 e2) := by positivity
  rw [mul_le_mul_right hp, Int.cast_le]
  simp only [F64.le, decide_eq_true_eq]

/-- A value of the format is its own nearest value. -/
theorem F64.Nearest.exact {x : ℚ} {m0 : Nat} {e0 : Int} (h : F64.Nearest x m0 e0)
    (mB : Nat) (eB : Int) (hB : mB < 2 ^ 53) (hlo : -1074 ≤ eB) (hx : x = (mB : ℚ) * 2 ^ eB) :
    (m0 : ℚ) * 2 ^ e0 = x := by
  obtain ⟨he, h1, h2, h3, h4, -, -⟩ := h
  have hp : (0 : ℚ) < 2 ^ e0 := by positivity
  have hle : e0 ≤ eB := by
    by_contra hcon
    have h1 : (2 : ℚ) ^ 52 * 2 ^ e0 ≤ x := by
      rcases h1 with h | h
      · omega
      · exact h
    have hpq : (2 : ℚ) * 2 ^ eB ≤ 2 ^ e0 := by
      have : (2 : ℚ) * 2 ^ eB = 2 ^ (eB + 1) := by
        rw [zpow_add₀ (by norm_num), zpow_one]; ring
      rw [this]
      exact zpow_le_zpow_right₀ (by norm_num) (by omega)
    have hq : (0 : ℚ) < 2 ^ eB := by positivity
    have hBq : (mB : ℚ) + 1 ≤ 2 ^ 53 := by exact_mod_cast hB
    have : (mB : ℚ) * 2 ^ eB + 2 ^ eB ≤ 2 ^ 53 * 2 ^ eB := by
      have := mul_le_mul_of_nonneg_right hBq hq.le
      linarith
    linarith
  have hxa : x = ((mB * 2 ^ (eB - e0).toNat : Nat) : ℚ) * 2 ^ e0 := by
    rw [hx, F64.two_zpow_split e0 eB hle]
    push_cast
    ring
  obtain ⟨a, ha⟩ : ∃ a : Nat, a = mB * 2 ^ (eB - e0).toNat := ⟨_, rfl⟩
  rw [← ha] at hxa
  rw [hxa] at h3 h4 ⊢
  have h5 : 2 * (m0 : ℚ) ≤ 2 * (a : ℚ) + 1 := by
    have : 2 * (m0 : ℚ) * 2 ^ e0 ≤ (2 * (a : ℚ) + 1) * 2 ^ e0 := by linarith
    exact le_of_mul_le_mul_right this hp
  have h6 : 2 * (a : ℚ) ≤ 2 * (m0 : ℚ) + 1 := by
    have : 2 * (a : ℚ) * 2 ^ e0 ≤ (2 * (m0 : ℚ) + 1) * 2 ^ e0 := by linarith
    exact le_of_mul_le_mul_right this hp
  have h7 : 2 * m0 ≤ 2 * a + 1 := by exact_mod_cast h5
  have h8 : 2 * a ≤ 2 * m0 + 1 := by exact_mod_cast h6
  have h9 : m0 = a := by omega
  rw [h9]

/-- Two finite values in the form of the format with the same exact value are
the same. -/
theorem F64.canonical_unique (m n : Nat) (e f : Int) (hm : m < 2 ^ 53) (hn : n < 2 ^ 53)
    (he : -1074 ≤ e) (hf : -1074 ≤ f) (hcm : 2 ^ 52 ≤ m ∨ e = -1074)
    (hcn : 2 ^ 52 ≤ n ∨ f = -1074) (h : (m : ℚ) * 2 ^ e = (n : ℚ) * 2 ^ f) : m = n ∧ e = f := by
  have key : ∀ (m n : Nat) (e f : Int), m < 2 ^ 53 → -1074 ≤ e → (2 ^ 52 ≤ n ∨ f = -1074) →
      (m : ℚ) * 2 ^ e = (n : ℚ) * 2 ^ f → ¬ e < f := by
    intro m n e f hm he hcn h hlt
    have hn52 : 2 ^ 52 ≤ n := by
      rcases hcn with h | h
      · exact h
      · omega
    have hp : (0 : ℚ) < 2 ^ e := by positivity
    have hpq : (2 : ℚ) * 2 ^ e ≤ 2 ^ f := by
      have : (2 : ℚ) * 2 ^ e = 2 ^ (e + 1) := by
        rw [zpow_add₀ (by norm_num), zpow_one]; ring
      rw [this]
      exact zpow_le_zpow_right₀ (by norm_num) (by omega)
    have hmq : (m : ℚ) + 1 ≤ 2 ^ 53 := by exact_mod_cast hm
    have hnq : (2 : ℚ) ^ 52 ≤ (n : ℚ) := by exact_mod_cast hn52
    have h1 : (m : ℚ) * 2 ^ e + 2 ^ e ≤ 2 ^ 53 * 2 ^ e := by
      have := mul_le_mul_of_nonneg_right hmq hp.le
      linarith
    have h2 : (2 : ℚ) ^ 52 * 2 ^ f ≤ (n : ℚ) * 2 ^ f :=
      mul_le_mul_of_nonneg_right hnq (by positivity)
    have h3 : (2 : ℚ) ^ 52 * (2 * 2 ^ e) ≤ 2 ^ 52 * 2 ^ f :=
      mul_le_mul_of_nonneg_left hpq (by positivity)
    linarith
  have hef : e = f := by
    have h1 := key m n e f hm he hcn h
    have h2 := key n m f e hn hf hcm h.symm
    omega
  subst hef
  have hp : (0 : ℚ) < 2 ^ e := by positivity
  have := mul_right_cancel₀ hp.ne.symm h
  exact ⟨by exact_mod_cast this, rfl⟩

/-- What `F64.roundQuot` returns for `d > 0`: an infinity, or a finite value in
the form of the format whose exact value is the nearest one to `n / d * 2^E`. -/
theorem F64.roundQuot_spec (neg : Bool) (n d : Nat) (E : Int) (hd : 0 < d) :
    ∃ (e0 : Int) (m0 : Nat), F64.Nearest ((n : ℚ) / (d : ℚ) * 2 ^ E) m0 e0 ∧
      ((F64.roundQuot neg n d E = F64.inf neg ∧
          (2 : ℚ) ^ 53 * 2 ^ (971 : Int) ≤ (m0 : ℚ) * 2 ^ e0) ∨
        ∃ (m : Nat) (e : Int), F64.roundQuot neg n d E = F64.fin neg m e ∧ m < 2 ^ 53 ∧
          -1074 ≤ e ∧ e ≤ 971 ∧ (2 ^ 52 ≤ m ∨ e = -1074) ∧
          (m : ℚ) * 2 ^ e = (m0 : ℚ) * 2 ^ e0) := by
  rcases Nat.eq_zero_or_pos n with hn | hn
  · subst hn
    refine ⟨-1074, 0, ?_, Or.inr ⟨0, -1074, by simp [F64.roundQuot],
      by norm_num, le_rfl, by norm_num, Or.inr rfl, rfl⟩⟩
    simp only [Nat.cast_zero, zero_div, zero_mul]
    exact F64.nearest_zero
  · rw [F64.roundQuot, if_neg (by omega)]
    obtain ⟨k, hk⟩ : ∃ k : Nat, k = F64.bitLen d + 64 := ⟨_, rfl⟩
    simp only [← hk]
    have hdm := Nat.div_add_mod (n * 2 ^ k) d
    obtain ⟨M, hMdef⟩ : ∃ M : Nat, M = n * 2 ^ k / d := ⟨_, rfl⟩
    obtain ⟨R, hRdef⟩ : ∃ R : Nat, R = n * 2 ^ k % d := ⟨_, rfl⟩
    rw [← hMdef, ← hRdef] at hdm
    rw [← hMdef, ← hRdef]
    have hR : R < d := by rw [hRdef]; exact Nat.mod_lt _ hd
    have hdL := (F64.bitLen_spec d hd).2
    have hM64 : 2 ^ 64 ≤ M := by
      rw [hMdef, Nat.le_div_iff_mul_le hd]
      calc 2 ^ 64 * d ≤ 2 ^ 64 * 2 ^ F64.bitLen d := Nat.mul_le_mul_left _ hdL.le
        _ = 2 ^ k := by rw [hk, ← pow_add, Nat.add_comm]
        _ ≤ n * 2 ^ k := Nat.le_mul_of_pos_left _ hn
    have hMpos : 0 < M := lt_of_lt_of_le (by norm_num) hM64
    have hML : 53 < F64.bitLen M := by
      by_contra hcon
      have h1 := (F64.bitLen_spec M hMpos).2
      have h2 : 2 ^ F64.bitLen M ≤ 2 ^ 53 := Nat.pow_le_pow_right (by norm_num) (by omega)
      omega
    have hdq : (0 : ℚ) < (d : ℚ) := by exact_mod_cast hd
    have hxeq : (n : ℚ) / (d : ℚ) * 2 ^ E =
        ((M : ℚ) + (R : ℚ) / (d : ℚ)) * 2 ^ (E - (k : Int)) := by
      have h1 : (n : ℚ) * 2 ^ k = (d : ℚ) * (M : ℚ) + (R : ℚ) := by exact_mod_cast hdm.symm
      have h2 : (2 : ℚ) ^ E = 2 ^ (E - (k : Int)) * 2 ^ k := by
        rw [← zpow_natCast, ← zpow_add₀ (by norm_num)]
        congr 1
        omega
      rw [h2]
      field_simp
      linear_combination (2 : ℚ) ^ (E - (k : Int)) * h1
    have hp : (0 : ℚ) < 2 ^ (E - (k : Int)) := by positivity
    apply F64.round_spec
    rw [hxeq]
    by_cases hR0 : R = 0
    · left
      refine ⟨by simp [hR0], ?_⟩
      rw [hR0]
      simp
    · right
      refine ⟨by simp [hR0], hML, ?_, ?_⟩
      · have h3 : (0 : ℚ) < (R : ℚ) / (d : ℚ) := by
          apply div_pos _ hdq
          exact_mod_cast Nat.pos_of_ne_zero hR0
        have := mul_pos h3 hp
        linarith
      · have h3 : (0 : ℚ) < 1 - (R : ℚ) / (d : ℚ) := by
          rw [sub_pos, div_lt_one hdq]
          exact_mod_cast hR
        have := mul_pos h3 hp
        linarith

/-- A finite value in the form of the format is the nearest value to itself. -/
theorem F64.Nearest.of_canonical (m : Nat) (e : Int) (hm : m < 2 ^ 53) (he : -1074 ≤ e)
    (hc : 2 ^ 52 ≤ m ∨ e = -1074) : F64.Nearest ((m : ℚ) * 2 ^ e) m e := by
  have hp : (0 : ℚ) < 2 ^ e := by positivity
  have hmq : (m : ℚ) + 1 ≤ 2 ^ 53 := by exact_mod_cast hm
  refine ⟨he, ?_, ?_, by linarith, by linarith, ?_, ?_⟩
  · rcases hc with h | h
    · right
      have : (2 : ℚ) ^ 52 ≤ (m : ℚ) := by exact_mod_cast h
      exact mul_le_mul_of_nonneg_right this hp.le
    · exact Or.inl h
  · have := mul_le_mul_of_nonneg_right hmq hp.le
    linarith
  · intro h
    exfalso
    linarith
  · intro h
    exfalso
    linarith

/-- Rounding a value of the format returns that value. -/
theorem F64.round_exact (neg : Bool) (M : Nat) (E : Int) (mB : Nat) (eB : Int)
    (hB : mB < 2 ^ 53) (h1 : -1074 ≤ eB) (h2 : eB ≤ 971)
    (hx : (M : ℚ) * 2 ^ E = (mB : ℚ) * 2 ^ eB) :
    ∃ (m : Nat) (e : Int), F64.round neg M E false = F64.fin neg m e ∧ m < 2 ^ 53 ∧
      -1074 ≤ e ∧ e ≤ 971 ∧ (2 ^ 52 ≤ m ∨ e = -1074) ∧ (m : ℚ) * 2 ^ e = (mB : ℚ) * 2 ^ eB := by
  obtain ⟨e0, m0, hN, hout⟩ := F64.round_spec neg M E false ((M : ℚ) * 2 ^ E) (Or.inl ⟨rfl, rfl⟩)
  have hval := hN.exact mB eB hB h1 hx
  rcases hout with ⟨-, hbig⟩ | ⟨m, e, hr, hm, he1, he2, hc, hv⟩
  · exfalso
    rw [hval, hx] at hbig
    have hq : (0 : ℚ) < 2 ^ eB := by positivity
    have hBq : (mB : ℚ) + 1 ≤ 2 ^ 53 := by exact_mod_cast hB
    have hz : (2 : ℚ) ^ eB ≤ 2 ^ (971 : Int) := zpow_le_zpow_right₀ (by norm_num) h2
    have h3 := mul_le_mul_of_nonneg_right hBq hq.le
    have h4 : (2 : ℚ) ^ 53 * 2 ^ eB ≤ 2 ^ 53 * 2 ^ (971 : Int) :=
      mul_le_mul_of_nonneg_left hz (by positivity)
    linarith
  · exact ⟨m, e, hr, hm, he1, he2, hc, by rw [hv, hval, hx]⟩

/-- The conversion of an `int` is `F64.ofInt`. -/
theorem F64.intCast_eq (k : Int) : ((k : Int) : F64) = F64.ofInt k := rfl

/-- The conversion of an integer `0 <= k < 2^53` is exact. -/
theorem F64.ofInt_nonneg (k : Int) (h0 : 0 ≤ k) (h53 : k < 2 ^ 53) :
    ∃ (m : Nat) (e : Int), ((k : Int) : F64) = F64.fin false m e ∧ m < 2 ^ 53 ∧
      -1074 ≤ e ∧ e ≤ 971 ∧ (2 ^ 52 ≤ m ∨ e = -1074) ∧ (m : ℚ) * 2 ^ e = (k : ℚ) := by
  have hneg : decide (k < 0) = false := by simp [h0]
  have hk : ((k.natAbs : Nat) : ℚ) = (k : ℚ) := by
    obtain ⟨n, rfl⟩ := Int.eq_ofNat_of_zero_le h0
    simp
  obtain ⟨m, e, hr, hm, he1, he2, hc, hv⟩ := F64.round_exact false k.natAbs 0 k.natAbs 0
    (by omega) (by norm_num) (by norm_num) rfl
  refine ⟨m, e, ?_, hm, he1, he2, hc, ?_⟩
  · rw [F64.intCast_eq, F64.ofInt, hneg]
    exact hr
  · rw [hv, hk]
    simp

/-- A product is not a number, an infinity, or a finite value in the form of
the format. -/
theorem F64.mul_cases (X Y : F64) :
    X * Y = F64.nan ∨ (∃ s : Bool, X * Y = F64.inf s) ∨
      ∃ (s : Bool) (m : Nat) (e : Int), X * Y = F64.fin s m e ∧ m < 2 ^ 53 ∧ -1074 ≤ e ∧
        e ≤ 971 ∧ (2 ^ 52 ≤ m ∨ e = -1074) := by
  show F64.mul X Y = F64.nan ∨ (∃ s : Bool, F64.mul X Y = F64.inf s) ∨
      ∃ (s : Bool) (m : Nat) (e : Int), F64.mul X Y = F64.fin s m e ∧ m < 2 ^ 53 ∧ -1074 ≤ e ∧
        e ≤ 971 ∧ (2 ^ 52 ≤ m ∨ e = -1074)
  cases X with
  | nan => exact Or.inl (by simp [F64.mul])
  | inf a =>
    cases Y with
    | nan => exact Or.inl (by simp [F64.mul])
    | inf b => exact Or.inr (Or.inl ⟨xor a b, by simp [F64.mul]⟩)
    | fin b m e =>
      by_cases h : m = 0
      · exact Or.inl (by simp [F64.mul, h])
      · exact Or.inr (Or.inl ⟨xor a b, by simp [F64.mul, h]⟩)
  | fin a m1 e1 =>
    cases Y with
    | nan => exact Or.inl (by simp [F64.mul])
    | inf b =>
      by_cases h : m1 = 0
      · exact Or.inl (by simp [F64.mul, h])
      · exact Or.inr (Or.inl ⟨xor a b, by simp [F64.mul, h]⟩)
    | fin b m2 e2 =>
      obtain ⟨e0, m0, -, hout⟩ := F64.round_spec (xor a b) (m1 * m2) (e1 + e2) false
        (((m1 * m2 : Nat) : ℚ) * 2 ^ (e1 + e2)) (Or.inl ⟨rfl, rfl⟩)
      rcases hout with ⟨h, -⟩ | ⟨m, e, hr, hm, he1, he2, hc, -⟩
      · exact Or.inr (Or.inl ⟨xor a b, by simp only [F64.mul]; exact h⟩)
      · exact Or.inr (Or.inr ⟨xor a b, m, e, by simp only [F64.mul]; exact hr, hm, he1, he2, hc⟩)

/-- The product of `1.0` and a finite value in the form of the format is that
value. -/
theorem F64.one_mul_fin (s : Bool) (m : Nat) (e : Int) (hm : m < 2 ^ 53) (h1 : -1074 ≤ e)
    (h2 : e ≤ 971) (hc : 2 ^ 52 ≤ m ∨ e = -1074) :
    F64.fin false (2 ^ 52) (-52) * F64.fin s m e = F64.fin s m e := by
  show F64.mul (F64.fin false (2 ^ 52) (-52)) (F64.fin s m e) = F64.fin s m e
  have hx : ((2 ^ 52 * m : Nat) : ℚ) * 2 ^ (-52 + e) = (m : ℚ) * 2 ^ e := by
    rw [zpow_add₀ (by norm_num)]
    push_cast
    have : (2 : ℚ) ^ (52 : Nat) * 2 ^ (-52 : Int) = 1 := by
      rw [← zpow_natCast, ← zpow_add₀ (by norm_num)]
      norm_num
    linear_combination ((m : ℚ) * 2 ^ e) * this
  obtain ⟨m', e', hr, hm', he1, he2, hc', hv⟩ := F64.round_exact s (2 ^ 52 * m) (-52 + e) m e
    hm h1 h2 hx
  obtain ⟨hmm, hee⟩ := F64.canonical_unique m' m e' e hm' hm he1 h1 hc' hc hv
  simp only [F64.mul, Bool.false_xor]
  rw [hr, hmm, hee]

/-- The product of `0.0` and a finite value is a zero of its sign. -/
theorem F64.zero_mul_fin (s : Bool) (m : Nat) (e : Int) :
    F64.fin false 0 (-1074) * F64.fin s m e = F64.fin s 0 (-1074) := by
  show F64.mul (F64.fin false 0 (-1074)) (F64.fin s m e) = F64.fin s 0 (-1074)
  simp [F64.mul, F64.round]

/-- The quotient `k / N` of two converted integers, `0 <= k <= N < 2^53`,
`N > 0`: a finite value in the form of the format, the nearest one to the exact
quotient. -/
theorem F64.ratio_spec (k N : Int) (hk : 0 ≤ k) (hkN : k ≤ N) (hN : 0 < N) (hN53 : N < 2 ^ 53) :
    ∃ (mr : Nat) (er : Int), ((k : Int) : F64) / ((N : Int) : F64) = F64.fin false mr er ∧
      mr < 2 ^ 53 ∧ -1074 ≤ er ∧ er ≤ 971 ∧ (2 ^ 52 ≤ mr ∨ er = -1074) ∧
      (mr : ℚ) * 2 ^ er ≤ 1 ∧
      ∃ (m0 : Nat) (e0 : Int), F64.Nearest ((k : ℚ) / (N : ℚ)) m0 e0 ∧
        (mr : ℚ) * 2 ^ er = (m0 : ℚ) * 2 ^ e0 := by
  obtain ⟨mk, ek, hkf, -, -, -, -, hkv⟩ := F64.ofInt_nonneg k hk (by omega)
  obtain ⟨mN, eN, hNf, -, -, -, -, hNv⟩ := F64.ofInt_nonneg N hN.le hN53
  have hNq : (0 : ℚ) < (N : ℚ) := by exact_mod_cast hN
  have hmN : mN ≠ 0 := by
    rintro rfl
    simp only [Nat.cast_zero, zero_mul] at hNv
    linarith
  have hdiv : ((k : Int) : F64) / ((N : Int) : F64) = F64.roundQuot false mk mN (ek - eN) := by
    rw [hkf, hNf]
    show F64.div (F64.fin false mk ek) (F64.fin false mN eN) = _
    simp [F64.div, hmN]
  obtain ⟨e0, m0, hNear, hout⟩ := F64.roundQuot_spec false mk mN (ek - eN) (Nat.pos_of_ne_zero hmN)
  have hxeq : (mk : ℚ) / (mN : ℚ) * 2 ^ (ek - eN) = (k : ℚ) / (N : ℚ) := by
    rw [← hkv, ← hNv, zpow_sub₀ (by norm_num)]
    have hmNq : (mN : ℚ) ≠ 0 := by exact_mod_cast hmN
    field_simp
  rw [hxeq] at hNear
  have hone : F64.Nearest (((2 ^ 52 : Nat) : ℚ) * 2 ^ (-52 : Int)) (2 ^ 52) (-52) :=
    F64.Nearest.of_canonical (2 ^ 52) (-52) (by norm_num) (by norm_num) (Or.inl le_rfl)
  have hone1 : ((2 ^ 52 : Nat) : ℚ) * 2 ^ (-52 : Int) = 1 := by
    rw [Nat.cast_pow, Nat.cast_ofNat, ← zpow_natCast, ← zpow_add₀ (by norm_num)]
    norm_num
  have hle1 : (k : ℚ) / (N : ℚ) ≤ ((2 ^ 52 : Nat) : ℚ) * 2 ^ (-52 : Int) := by
    rw [hone1, div_le_one hNq]
    exact_mod_cast hkN
  have hmono := hNear.mono hone hle1
  rw [hone1] at hmono
  rcases hout with ⟨-, hbig⟩ | ⟨m, e, hr, hm, he1, he2, hc, hv⟩
  · exfalso
    have : (1 : ℚ) < 2 ^ 53 * 2 ^ (971 : Int) := by
      have h1 : (1 : ℚ) ≤ 2 ^ (971 : Int) := one_le_zpow₀ (by norm_num) (by norm_num)
      have h2 : (1 : ℚ) < 2 ^ 53 := by norm_num
      calc (1 : ℚ) = 1 * 1 := by ring
        _ < 2 ^ 53 * 2 ^ (971 : Int) := mul_lt_mul h2 h1 (by norm_num) (by positivity)
    linarith
  · exact ⟨m, e, by rw [hdiv, hr], hm, he1, he2, hc, by rw [hv]; exact hmono, m0, e0, hNear, hv⟩

/-- The product of a finite value `r <= 1` and a finite value `A` in the form
of the format: finite, of the sign of `A`, the nearest value to the exact
product. -/
theorem F64.mul_le_one_spec (mr : Nat) (er : Int) (hr1 : (mr : ℚ) * 2 ^ er ≤ 1)
    (s : Bool) (m : Nat) (e : Int) (hm : m < 2 ^ 53) (h1 : -1074 ≤ e) (h2 : e ≤ 971)
    (hc : 2 ^ 52 ≤ m ∨ e = -1074) :
    ∃ (m' : Nat) (e' : Int), F64.fin false mr er * F64.fin s m e = F64.fin s m' e' ∧
      m' < 2 ^ 53 ∧ -1074 ≤ e' ∧ e' ≤ 971 ∧ (2 ^ 52 ≤ m' ∨ e' = -1074) ∧
      (m' : ℚ) * 2 ^ e' ≤ (m : ℚ) * 2 ^ e ∧
      ∃ (m0 : Nat) (e0 : Int),
        F64.Nearest (((mr : ℚ) * 2 ^ er) * ((m : ℚ) * 2 ^ e)) m0 e0 ∧
        (m' : ℚ) * 2 ^ e' = (m0 : ℚ) * 2 ^ e0 := by
  have hx : ((mr * m : Nat) : ℚ) * 2 ^ (er + e) = ((mr : ℚ) * 2 ^ er) * ((m : ℚ) * 2 ^ e) := by
    rw [zpow_add₀ (by norm_num)]
    push_cast
    ring
  obtain ⟨e0, m0, hNear, hout⟩ := F64.round_spec s (mr * m) (er + e) false
    (((mr * m : Nat) : ℚ) * 2 ^ (er + e)) (Or.inl ⟨rfl, rfl⟩)
  rw [hx] at hNear
  have hA0 : (0 : ℚ) ≤ (m : ℚ) * 2 ^ e := by positivity
  have hle : ((mr : ℚ) * 2 ^ er) * ((m : ℚ) * 2 ^ e) ≤ (m : ℚ) * 2 ^ e := by
    have := mul_le_mul_of_nonneg_right hr1 hA0
    linarith
  have hmono := hNear.mono (F64.Nearest.of_canonical m e hm h1 hc) hle
  have hprod : F64.fin false mr er * F64.fin s m e = F64.round s (mr * m) (er + e) false := by
    show F64.mul (F64.fin false mr er) (F64.fin s m e) = _
    simp only [F64.mul, Bool.false_xor]
  rcases hout with ⟨-, hbig⟩ | ⟨m', e', hr, hm', he1, he2, hc', hv⟩
  · exfalso
    have hq : (0 : ℚ) < 2 ^ e := by positivity
    have hBq : (m : ℚ) + 1 ≤ 2 ^ 53 := by exact_mod_cast hm
    have hz : (2 : ℚ) ^ e ≤ 2 ^ (971 : Int) := zpow_le_zpow_right₀ (by norm_num) h2
    have h3 := mul_le_mul_of_nonneg_right hBq hq.le
    have h4 : (2 : ℚ) ^ 53 * 2 ^ e ≤ 2 ^ 53 * 2 ^ (971 : Int) :=
      mul_le_mul_of_nonneg_left hz (by positivity)
    linarith
  · exact ⟨m', e', by rw [hprod, hr], hm', he1, he2, hc', by rw [hv]; exact hmono,
      m0, e0, hNear, hv⟩

/-- The literal `0.0`. -/
theorem F64.zero_eq : (0.0 : F64) = F64.fin false 0 (-1074) := by decide

/-- Every finite value with significand `0`, and every finite value of
positive sign, compares `>= 0.0`, and so does `+infinity`. -/
theorem F64.zero_le_fin (s : Bool) (m : Nat) (e : Int) (h : s = false ∨ m = 0) :
    (0.0 : F64) ≤ F64.fin s m e := by
  rw [F64.zero_eq]
  show F64.le _ _ = true
  rw [F64.le_fin_iff]
  rcases h with h | h
  · subst h
    simp only [F64.toRat]
    have : (0 : ℚ) ≤ (m : ℚ) * 2 ^ e := by positivity
    simpa using this
  · subst h
    simp [F64.toRat]

/-- A finite value that compares `>= 0.0` has positive sign or significand `0`. -/
theorem F64.sign_of_zero_le (s : Bool) (m : Nat) (e : Int) (h : (0.0 : F64) ≤ F64.fin s m e) :
    s = false ∨ m = 0 := by
  rw [F64.zero_eq] at h
  have h2 : F64.le (F64.fin false 0 (-1074)) (F64.fin s m e) = true := h
  rw [F64.le_fin_iff] at h2
  cases s
  · exact Or.inl rfl
  · right
    simp only [F64.toRat] at h2
    have hp : (0 : ℚ) < 2 ^ e := by positivity
    have h3 : (m : ℚ) * 2 ^ e ≤ 0 := by
      simp at h2
      linarith
    have h4 : (m : ℚ) ≤ 0 := by
      by_contra hcon
      push_neg at hcon
      have := mul_pos hcon hp
      linarith
    have h5 : m ≤ 0 := by exact_mod_cast h4
    omega

/-- The difference `b - a` of two values with `a <= b` is not a number or
compares `>= 0.0`. -/
theorem F64.sub_nonneg_of_le (a b : F64) (h : a ≤ b) :
    b - a = F64.nan ∨ (0.0 : F64) ≤ b - a := by
  have h2 : F64.le a b = true := h
  have hinf : (0.0 : F64) ≤ F64.inf false := by
    rw [F64.zero_eq]
    show F64.le _ _ = true
    rfl
  show F64.add b (F64.neg a) = F64.nan ∨ (0.0 : F64) ≤ F64.add b (F64.neg a)
  cases a with
  | nan => simp [F64.le] at h2
  | inf sa =>
    cases b with
    | nan => simp [F64.le] at h2
    | inf sb =>
      cases sa <;> cases sb <;> simp [F64.le, F64.add, F64.neg] at h2 ⊢
      exact hinf
    | fin sb m e =>
      simp only [F64.le] at h2
      subst h2
      right
      simp only [F64.add, F64.neg]
      exact hinf
  | fin sa m1 e1 =>
    cases b with
    | nan => simp [F64.le] at h2
    | inf sb =>
      simp only [F64.le, Bool.not_eq_true'] at h2
      subst h2
      right
      simp only [F64.add, F64.neg]
      exact hinf
    | fin sb m2 e2 =>
      right
      simp only [F64.le, decide_eq_true_eq] at h2
      simp only [F64.add, F64.neg]
      have hsg : ∀ n : Nat, F64.signed (!sa) n = - F64.signed sa n := by
        intro n
        cases sa <;> simp [F64.signed]
      rw [min_comm e2 e1, hsg]
      split
      · exact F64.zero_le_fin _ _ _ (Or.inr rfl)
      · rename_i hne
        have hdec : decide (F64.signed sb (m2 * 2 ^ (e2 - min e1 e2).toNat) +
            -F64.signed sa (m1 * 2 ^ (e1 - min e1 e2).toNat) < 0) = false := by
          simp only [decide_eq_false_iff_not]
          omega
        rw [hdec]
        obtain ⟨e0, m0, -, hout⟩ := F64.round_spec false
          (F64.signed sb (m2 * 2 ^ (e2 - min e1 e2).toNat) +
            -F64.signed sa (m1 * 2 ^ (e1 - min e1 e2).toNat)).natAbs (min e1 e2) false _
          (Or.inl ⟨rfl, rfl⟩)
        rcases hout with ⟨hr, -⟩ | ⟨m, e, hr, -⟩
        · rw [hr]; exact hinf
        · rw [hr]; exact F64.zero_le_fin _ _ _ (Or.inl rfl)

/-- The product of two values that compare `>= 0.0` is not a number or
compares `>= 0.0`. -/
theorem F64.mul_nonneg (X Y : F64) (hX : (0.0 : F64) ≤ X) (hY : (0.0 : F64) ≤ Y) :
    X * Y = F64.nan ∨ (0.0 : F64) ≤ X * Y := by
  have hinf : (0.0 : F64) ≤ F64.inf false := by
    rw [F64.zero_eq]
    show F64.le _ _ = true
    rfl
  have hneg : ¬ (0.0 : F64) ≤ F64.inf true := by
    rw [F64.zero_eq]
    show ¬ F64.le _ _ = true
    simp [F64.le]
  have hnan : ¬ (0.0 : F64) ≤ F64.nan := by
    rw [F64.zero_eq]
    show ¬ F64.le _ _ = true
    simp [F64.le]
  show F64.mul X Y = F64.nan ∨ (0.0 : F64) ≤ F64.mul X Y
  cases X with
  | nan => exact absurd hX hnan
  | inf a =>
    cases a
    · cases Y with
      | nan => exact absurd hY hnan
      | inf b =>
        cases b
        · right; simp only [F64.mul]; exact hinf
        · exact absurd hY hneg
      | fin b m e =>
        by_cases hm : m = 0
        · left; simp [F64.mul, hm]
        · right
          have hb : b = false := by
            rcases F64.sign_of_zero_le b m e hY with h | h
            · exact h
            · exact absurd h hm
          subst hb
          simp only [F64.mul, if_neg hm]
          exact hinf
    · exact absurd hX hneg
  | fin a m1 e1 =>
    cases Y with
    | nan => exact absurd hY hnan
    | inf b =>
      cases b
      · by_cases hm : m1 = 0
        · left; simp [F64.mul, hm]
        · right
          have ha : a = false := by
            rcases F64.sign_of_zero_le a m1 e1 hX with h | h
            · exact h
            · exact absurd h hm
          subst ha
          simp only [F64.mul, if_neg hm]
          exact hinf
      · exact absurd hY hneg
    | fin b m2 e2 =>
      right
      simp only [F64.mul]
      by_cases hz : m1 * m2 = 0
      · rw [hz]
        simp only [F64.round, if_true]
        exact F64.zero_le_fin _ _ _ (Or.inr rfl)
      · have h1 : m1 ≠ 0 := fun h => hz (by rw [h, Nat.zero_mul])
        have h2 : m2 ≠ 0 := fun h => hz (by rw [h, Nat.mul_zero])
        have ha : a = false := by
          rcases F64.sign_of_zero_le a m1 e1 hX with h | h
          · exact h
          · exact absurd h h1
        have hb : b = false := by
          rcases F64.sign_of_zero_le b m2 e2 hY with h | h
          · exact h
          · exact absurd h h2
        subst ha hb
        obtain ⟨e0, m0, -, hout⟩ := F64.round_spec false (m1 * m2) (e1 + e2) false _
          (Or.inl ⟨rfl, rfl⟩)
        rcases hout with ⟨hr, -⟩ | ⟨m, e, hr, -⟩
        · simp only [Bool.xor_false]; rw [hr]; exact hinf
        · simp only [Bool.xor_false]; rw [hr]; exact F64.zero_le_fin _ _ _ (Or.inl rfl)

/-- The estimate `(k / N) * A` for `0 <= k <= N < 2^53`, `N > 0` and a finite
`A >= 0.0` in the form of the format: it compares `>= 0.0` and `<= A`. -/
theorem F64.ratio_mul_bounds (k N : Int) (hk : 0 ≤ k) (hkN : k ≤ N) (hN : 0 < N)
    (hN53 : N < 2 ^ 53) (s : Bool) (m : Nat) (e : Int) (hm : m < 2 ^ 53) (h1 : -1074 ≤ e)
    (h2 : e ≤ 971) (hc : 2 ^ 52 ≤ m ∨ e = -1074) (hs : s = false ∨ m = 0) :
    (0.0 : F64) ≤ ((k : Int) : F64) / ((N : Int) : F64) * F64.fin s m e ∧
    ((k : Int) : F64) / ((N : Int) : F64) * F64.fin s m e ≤ F64.fin s m e := by
  obtain ⟨mr, er, hr, -, -, -, -, hr1, -⟩ := F64.ratio_spec k N hk hkN hN hN53
  obtain ⟨m', e', hp, -, -, -, -, hle, -⟩ := F64.mul_le_one_spec mr er hr1 s m e hm h1 h2 hc
  rw [hr, hp]
  have hp' : (0 : ℚ) < 2 ^ e' := by positivity
  have hs' : s = false ∨ m' = 0 := by
    rcases hs with h | h
    · exact Or.inl h
    · right
      subst h
      simp only [Nat.cast_zero, zero_mul] at hle
      have h4 : (m' : ℚ) ≤ 0 := by
        by_contra hcon
        push_neg at hcon
        have := mul_pos hcon hp'
        linarith
      have h5 : m' ≤ 0 := by exact_mod_cast h4
      omega
  refine ⟨F64.zero_le_fin s m' e' hs', ?_⟩
  show F64.le _ _ = true
  rw [F64.le_fin_iff]
  simp only [F64.toRat]
  rcases hs with h | h
  · subst h
    simpa using hle
  · subst h
    rcases hs' with h | h
    · subst h
      simpa using hle
    · subst h
      simp

/-- The estimates `(j / N) * A` and `(k / N) * A` for `0 <= j <= k <= N < 2^53`,
`N > 0` and a finite `A >= 0.0` in the form of the format compare as `j` and
`k` do. -/
theorem F64.ratio_mul_mono (j k N : Int) (hj : 0 ≤ j) (hjk : j ≤ k) (hkN : k ≤ N) (hN : 0 < N)
    (hN53 : N < 2 ^ 53) (s : Bool) (m : Nat) (e : Int) (hm : m < 2 ^ 53) (h1 : -1074 ≤ e)
    (h2 : e ≤ 971) (hc : 2 ^ 52 ≤ m ∨ e = -1074) (hs : s = false ∨ m = 0) :
    ((j : Int) : F64) / ((N : Int) : F64) * F64.fin s m e ≤
      ((k : Int) : F64) / ((N : Int) : F64) * F64.fin s m e := by
  obtain ⟨mj, ej, hrj, -, -, -, -, hj1, m0j, e0j, hNj, hvj⟩ :=
    F64.ratio_spec j N hj (hjk.trans hkN) hN hN53
  obtain ⟨mk, ek, hrk, -, -, -, -, hk1, m0k, e0k, hNk, hvk⟩ :=
    F64.ratio_spec k N (hj.trans hjk) hkN hN hN53
  obtain ⟨pj, fj, hpj, -, -, -, -, hlej, n0j, f0j, hMj, hwj⟩ :=
    F64.mul_le_one_spec mj ej hj1 s m e hm h1 h2 hc
  obtain ⟨pk, fk, hpk, -, -, -, -, hlek, n0k, f0k, hMk, hwk⟩ :=
    F64.mul_le_one_spec mk ek hk1 s m e hm h1 h2 hc
  have hNq : (0 : ℚ) < (N : ℚ) := by exact_mod_cast hN
  have hjkq : (j : ℚ) / (N : ℚ) ≤ (k : ℚ) / (N : ℚ) := by
    apply div_le_div_of_nonneg_right _ hNq.le
    exact_mod_cast hjk
  have hr : (mj : ℚ) * 2 ^ ej ≤ (mk : ℚ) * 2 ^ ek := by
    rw [hvj, hvk]
    exact hNj.mono hNk hjkq
  have hA0 : (0 : ℚ) ≤ (m : ℚ) * 2 ^ e := by positivity
  have hres : (pj : ℚ) * 2 ^ fj ≤ (pk : ℚ) * 2 ^ fk := by
    rw [hwj, hwk]
    exact hMj.mono hMk (mul_le_mul_of_nonneg_right hr hA0)
  rw [hrj, hrk, hpj, hpk]
  show F64.le _ _ = true
  rw [F64.le_fin_iff]
  simp only [F64.toRat]
  rcases hs with h | h
  · subst h
    simpa using hres
  · subst h
    simp only [Nat.cast_zero, zero_mul] at hlej hlek
    have hpj0 : (0 : ℚ) ≤ (pj : ℚ) * 2 ^ fj := by positivity
    have hpk0 : (0 : ℚ) ≤ (pk : ℚ) * 2 ^ fk := by positivity
    have e1 : (pj : ℚ) * 2 ^ fj = 0 := le_antisymm hlej hpj0
    have e2 : (pk : ℚ) * 2 ^ fk = 0 := le_antisymm hlek hpk0
    rw [mul_assoc, mul_assoc, e1, e2]

/-- A product that compares `>= 0.0` and is not `+infinity` is a finite value
in the form of the format, of positive sign or with significand `0`. -/
theorem F64.finite_of_zero_le_mul (X Y : F64) (h0 : (0.0 : F64) ≤ X * Y)
    (hinf : X * Y ≠ F64.inf false) :
    ∃ (s : Bool) (m : Nat) (e : Int), X * Y = F64.fin s m e ∧ m < 2 ^ 53 ∧ -1074 ≤ e ∧
      e ≤ 971 ∧ (2 ^ 52 ≤ m ∨ e = -1074) ∧ (s = false ∨ m = 0) := by
  rcases F64.mul_cases X Y with h | ⟨s, h⟩ | ⟨s, m, e, h, hm, h1, h2, hc⟩
  · rw [h, F64.zero_eq] at h0
    have : F64.le (F64.fin false 0 (-1074)) F64.nan = true := h0
    simp [F64.le] at this
  · cases s
    · exact absurd h hinf
    · rw [h, F64.zero_eq] at h0
      have : F64.le (F64.fin false 0 (-1074)) (F64.inf true) = true := h0
      simp [F64.le] at this
  · rw [h] at h0
    exact ⟨s, m, e, h, hm, h1, h2, hc, F64.sign_of_zero_le s m e h0⟩

/-- The rectangle area `(x_max - x_min) * (y_max - y_min)` for `x_min <= x_max`
and `y_min <= y_max`, when it is finite: a value in the form of the format
that compares `>= 0.0`. -/
theorem F64.area_finite_nonneg (x_min x_max y_min y_max : F64) (hx : x_min ≤ x_max)
    (hy : y_min ≤ y_max)
    (hfin : ∃ (s : Bool) (m : Nat) (e : Int),
      (x_max - x_min) * (y_max - y_min) = F64.fin s m e) :
    ∃ (s : Bool) (m : Nat) (e : Int), (x_max - x_min) * (y_max - y_min) = F64.fin s m e ∧
      m < 2 ^ 53 ∧ -1074 ≤ e ∧ e ≤ 971 ∧ (2 ^ 52 ≤ m ∨ e = -1074) ∧ (s = false ∨ m = 0) := by
  obtain ⟨s, m, e, hA⟩ := hfin
  have hnanl : ∀ Y : F64, F64.nan * Y = F64.nan := by
    intro Y
    show F64.mul F64.nan Y = F64.nan
    cases Y <;> rfl
  have hnanr : ∀ X : F64, X * F64.nan = F64.nan := by
    intro X
    show F64.mul X F64.nan = F64.nan
    cases X <;> rfl
  have hX : (0.0 : F64) ≤ x_max - x_min := by
    rcases F64.sub_nonneg_of_le x_min x_max hx with h | h
    · rw [h, hnanl] at hA
      exact absurd hA (by simp)
    · exact h
  have hY : (0.0 : F64) ≤ y_max - y_min := by
    rcases F64.sub_nonneg_of_le y_min y_max hy with h | h
    · rw [h, hnanr] at hA
      exact absurd hA (by simp)
    · exact h
  have h0 : (0.0 : F64) ≤ (x_max - x_min) * (y_max - y_min) := by
    rcases F64.mul_nonneg _ _ hX hY with h | h
    · rw [h] at hA
      exact absurd hA (by simp)
    · exact h
  exact F64.finite_of_zero_le_mul _ _ h0 (by rw [hA]; simp)

/-- The product of `1.0` and a product is that product. -/
theorem F64.one_mul_product (X Y : F64) : F64.fin false (2 ^ 52) (-52) * (X * Y) = X * Y := by
  rcases F64.mul_cases X Y with h | ⟨s, h⟩ | ⟨s, m, e, h, hm, h1, h2, hc⟩
  · rw [h]
    rfl
  · rw [h]
    show F64.mul (F64.fin false (2 ^ 52) (-52)) (F64.inf s) = F64.inf s
    simp [F64.mul]
  · rw [h]
    exact F64.one_mul_fin s m e hm h1 h2 hc

/-! ## The claims -/

set_option maxRecDepth 8000
set_option exponentiation.threshold 5000

/-- C1: for `N > 0`, `monteCarloArea` returns `(k / N) * area_rect`, where
`area_rect = (x_max - x_min) * (y_max - y_min)` and `k` is the number of points,
among the `N` points drawn for that rectangle and seed, for which
`isPointInIntersection` is true. Holds for every arithmetic on `D` and every
generator. -/
theorem monteCarloArea_eq_count_ratio {D G : Type} [Add D] [Sub D] [Mul D] [Div D] [LE D]
    [∀ a b : D, Decidable (a ≤ b)] [IntCast D] (R : Random D G) (cs : List (Circle D))
    (x_min x_max y_min y_max : D) (N seed : Int) (hN : 0 < N) :
    ((sampledPoints R x_min x_max y_min y_max N.toNat (R.mt19937 seed)).length : Int) = N ∧
    monteCarloArea R cs x_min x_max y_min y_max N seed =
      ((((sampledPoints R x_min x_max y_min y_max N.toNat (R.mt19937 seed)).countP
          (fun p => isPointInIntersection p cs) : Nat) : Int) : D) / (N : D)
        * ((x_max - x_min) * (y_max - y_min)) := by
  constructor
  · rw [sampledPoints_length]; omega
  · simp only [monteCarloArea, monteCarloLoop_eq_countP, zero_add]

/-- C1, at a concrete input: four points drawn from the stand-in generator in
the rectangle `[0,3] x [0,3]`, one of them inside the unit circle around `(1,1)`. -/
theorem monteCarloArea_eq_count_ratio_witness :
    (0 : Int) < 4 ∧
    monteCarloArea lcg [Circle.mk (Point.mk 1 1) 1] 0 3 0 3 4 42 =
      (((1 : Nat) : Int) : ℚ) / ((4 : Int) : ℚ) * ((3 - 0) * (3 - 0)) := by
  refine ⟨by decide, ?_⟩
  rw [(monteCarloArea_eq_count_ratio lcg [Circle.mk (Point.mk 1 1) 1] 0 3 0 3 4 42
    (by decide)).2]
  have hk : (sampledPoints lcg 0 3 0 3 (4 : Int).toNat (lcg.mt19937 42)).countP
      (fun p => isPointInIntersection p [Circle.mk (Point.mk 1 1) 1]) = 1 := by
    simp [sampledPoints, drawPoint, lcg, isPointInIntersection, isPointInCircle, List.countP_cons]
    norm_num
  rw [hk]

/-- C2, refuted as stated for `double`: on the rectangle `[0, 1e200] x [0, 1e200]`
(`x_min < x_max`, `y_min < y_max`, `N = 4 > 0`) with one circle of radius `1`
around `(-10, -10)`, which no point of the rectangle meets, the area
`1e200 * 1e200` overflows to `+infinity` and the call returns
`(0 / 4) * infinity`, which is not a number: it is neither `>= 0` nor `<=` the
area. -/
theorem monteCarloArea_overflow_not_bounded :
    ((0.0 : F64) ≤ 1e200 ∧ ¬ ((1e200 : F64) ≤ 0.0)) ∧
    ((1e200 : F64) - 0.0) * ((1e200 : F64) - 0.0) = F64.inf false ∧
    monteCarloArea lcg64 [Circle.mk (Point.mk (-10.0) (-10.0)) 1.0]
      0.0 1e200 0.0 1e200 4 42 = F64.nan ∧
    ¬ ((0.0 : F64) ≤ monteCarloArea lcg64 [Circle.mk (Point.mk (-10.0) (-10.0)) 1.0]
      0.0 1e200 0.0 1e200 4 42) ∧
    ¬ (monteCarloArea lcg64 [Circle.mk (Point.mk (-10.0) (-10.0)) 1.0]
      0.0 1e200 0.0 1e200 4 42 ≤ ((1e200 : F64) - 0.0) * ((1e200 : F64) - 0.0)) := by
  decide

/-- C2, amended: for `0 < N < 2^53` (every `int`) the value returned by
`monteCarloArea` in `double` is `(k / N) * area_rect` for an integer
`0 <= k <= N` (the number of accepted points), where
`area_rect = (x_max - x_min) * (y_max - y_min)`; and when `x_min <= x_max`,
`y_min <= y_max` and `area_rect` is finite (it has not overflowed to an
infinity and is not a NaN), this value compares `>= 0.0` and `<= area_rect`.
In exact arithmetic (any linearly ordered field) the bound holds whenever
`x_min < x_max` and `y_min < y_max`. -/
theorem monteCarloArea_nonneg_le_area {G : Type} (R : Random F64 G) (cs : List (Circle F64))
    (x_min x_max y_min y_max : F64) {K H : Type} [LinearOrderedField K] (S : Random K H)
    (ks : List (Circle K)) (a_min a_max b_min b_max : K) (N seed : Int)
    (hN : 0 < N) (hN53 : N < 2 ^ 53) :
    ((∃ k : Int, 0 ≤ k ∧ k ≤ N ∧
        monteCarloArea R cs x_min x_max y_min y_max N seed =
          ((k : F64) / (N : F64)) * ((x_max - x_min) * (y_max - y_min))) ∧
      (x_min ≤ x_max → y_min ≤ y_max →
        (∃ (s : Bool) (m : Nat) (e : Int),
          (x_max - x_min) * (y_max - y_min) = F64.fin s m e) →
        (0.0 : F64) ≤ monteCarloArea R cs x_min x_max y_min y_max N seed ∧
          monteCarloArea R cs x_min x_max y_min y_max N seed ≤
            (x_max - x_min) * (y_max - y_min))) ∧
    (a_min < a_max → b_min < b_max →
      0 ≤ monteCarloArea S ks a_min a_max b_min b_max N seed ∧
        monteCarloArea S ks a_min a_max b_min b_max N seed ≤
          (a_max - a_min) * (b_max - b_min)) := by
  refine ⟨⟨?_, ?_⟩, ?_⟩
  · refine ⟨((sampledPoints R x_min x_max y_min y_max N.toNat (R.mt19937 seed)).countP
      (fun p => isPointInIntersection p cs) : Nat), Int.ofNat_nonneg _, ?_, ?_⟩
    · have := countP_sampledPoints_le R cs x_min x_max y_min y_max N.toNat (R.mt19937 seed)
      omega
    · simp only [monteCarloArea, monteCarloLoop_eq_countP, zero_add]
  · intro hx hy hfin
    obtain ⟨s, m, e, hA, hm, h1, h2, hc, hs⟩ :=
      F64.area_finite_nonneg x_min x_max y_min y_max hx hy hfin
    have hle := countP_sampledPoints_le R cs x_min x_max y_min y_max N.toNat (R.mt19937 seed)
    simp only [monteCarloArea, monteCarloLoop_eq_countP, zero_add]
    rw [hA]
    exact F64.ratio_mul_bounds _ N (Int.ofNat_nonneg _) (by omega) hN hN53 s m e hm h1 h2 hc hs
  · intro hx hy
    have hA : 0 < (a_max - a_min) * (b_max - b_min) := mul_pos (sub_pos.2 hx) (sub_pos.2 hy)
    have hle := countP_sampledPoints_le S ks a_min a_max b_min b_max N.toNat (S.mt19937 seed)
    simp only [monteCarloArea, monteCarloLoop_eq_countP, zero_add]
    generalize (sampledPoints S a_min a_max b_min b_max N.toNat (S.mt19937 seed)).countP
        (fun p => isPointInIntersection p ks) = k at hle
    have hND : (0 : K) < (N : K) := Int.cast_pos.2 hN
    have hkN : (((k : Nat) : Int) : K) ≤ (N : K) := Int.cast_le.2 (by omega)
    have hk0 : (0 : K) ≤ (((k : Nat) : Int) : K) := Int.cast_nonneg.2 (by omega)
    constructor
    · exact mul_nonneg (div_nonneg hk0 hND.le) hA.le
    · calc (((k : Nat) : Int) : K) / (N : K) * ((a_max - a_min) * (b_max - b_min))
          ≤ 1 * ((a_max - a_min) * (b_max - b_min)) :=
            mul_le_mul_of_nonneg_right ((div_le_one hND).2 hkN) hA.le
        _ = (a_max - a_min) * (b_max - b_min) := one_mul _

/-- C2 amended, at a concrete input: four points of the stand-in generator in
the rectangle `[0,3] x [0,3]`, on the `double` model (where the area `9.0` is
finite) and over the rationals. -/
theorem monteCarloArea_nonneg_le_area_witness :
    ((0 : Int) < 4 ∧ (4 : Int) < 2 ^ 53) ∧
    ((0.0 : F64) ≤ monteCarloArea lcg64 [Circle.mk (Point.mk 1.0 1.0) 1.0] 0.0 3.0 0.0 3.0 4 42 ∧
      monteCarloArea lcg64 [Circle.mk (Point.mk 1.0 1.0) 1.0] 0.0 3.0 0.0 3.0 4 42 ≤
        ((3.0 : F64) - 0.0) * (3.0 - 0.0)) ∧
    (0 ≤ monteCarloArea lcg [Circle.mk (Point.mk 1 1) 1] 0 3 0 3 4 42 ∧
      monteCarloArea lcg [Circle.mk (Point.mk 1 1) 1] 0 3 0 3 4 42 ≤ (3 - 0) * (3 - 0)) :=
  ⟨⟨by decide, by decide⟩,
    (monteCarloArea_nonneg_le_area lcg64 [Circle.mk (Point.mk 1.0 1.0) 1.0]
      0.0 3.0 0.0 3.0 lcg [Circle.mk (Point.mk 1 1) 1] 0 3 0 3 4 42
      (by decide) (by decide)).1.2 (by decide) (by decide)
      ⟨false, 5066549580791808, -49, by decide⟩,
    (monteCarloArea_nonneg_le_area lcg64 [Circle.mk (Point.mk 1.0 1.0) 1.0]
      0.0 3.0 0.0 3.0 lcg [Circle.mk (Point.mk 1 1) 1] 0 3 0 3 4 42
      (by decide) (by decide)).2 (by norm_num) (by norm_num)⟩

/-- C3, refuted as stated for `double`. The point `(1, 2^-30)` is accepted for
the unit circle around the origin although its exact squared distance
`1 + 2^-60` exceeds `1` (the sum rounds to `1`); and the point
`(2885450200, 3029722710)`, which lies exactly on the circle of radius
`4183902790` around the origin, is rejected (the computed sum of squares is
above the computed square of the radius). -/
theorem isPointInCircle_rounding_counterexample :
    (isPointInCircle (Point.mk (1.0 : F64) (1.0 / 1073741824.0))
        (Circle.mk (Point.mk 0.0 0.0) 1.0) = true ∧
      ¬ ((F64.toRat 1.0 - F64.toRat 0.0) ^ 2 +
          (F64.toRat (1.0 / 1073741824.0) - F64.toRat 0.0) ^ 2 ≤ F64.toRat 1.0 ^ 2)) ∧
    (isPointInCircle (Point.mk ((2885450200 : Int) : F64) ((3029722710 : Int) : F64))
        (Circle.mk (Point.mk 0.0 0.0) ((4183902790 : Int) : F64)) = false ∧
      (F64.toRat ((2885450200 : Int) : F64) - F64.toRat 0.0) ^ 2 +
          (F64.toRat ((3029722710 : Int) : F64) - F64.toRat 0.0) ^ 2 =
        F64.toRat ((4183902790 : Int) : F64) ^ 2) := by
  have h1 : (1.0 : F64) = F64.fin false (2 ^ 52) (-52) := by decide
  have h0 : (0.0 : F64) = F64.fin false 0 (-1074) := by decide
  have hy : (1.0 : F64) / 1073741824.0 = F64.fin false (2 ^ 52) (-82) := by decide
  have ha : ((2885450200 : Int) : F64) = F64.fin false (2885450200 * 2 ^ 21) (-21) := by decide
  have hb : ((3029722710 : Int) : F64) = F64.fin false (3029722710 * 2 ^ 21) (-21) := by decide
  have hc : ((4183902790 : Int) : F64) = F64.fin false (4183902790 * 2 ^ 21) (-21) := by decide
  refine ⟨⟨by decide, ?_⟩, by decide, ?_⟩
  · rw [hy, h1, h0]
    simp only [F64.toRat]
    norm_num
  · rw [ha, hb, hc, h0]
    simp only [F64.toRat]
    norm_num

/-- C3, amended: `isPointInCircle p c` is true exactly when
`dx * dx + dy * dy <= c.radius * c.radius`, with `dx = p.x - c.center.x`,
`dy = p.y - c.center.y` and every operation taken in the arithmetic of
`double` as lines 20-22 do, whatever that arithmetic is; the comparison is not
strict, so a point whose computed `dx * dx + dy * dy` equals the computed
`radius * radius` (a value that compares `<=` to itself) is inside. In exact
arithmetic (any linearly ordered field) this is the closed disk: true exactly
when `(p.x - c.center.x)^2 + (p.y - c.center.y)^2 <= c.radius^2`, boundary
included. -/
theorem isPointInCircle_iff_sq_dist_le {D : Type} [Add D] [Sub D] [Mul D] [LE D]
    [∀ a b : D, Decidable (a ≤ b)] (p : Point D) (c : Circle D)
    {K : Type} [LinearOrderedField K] (q : Point K) (k : Circle K) :
    ((isPointInCircle p c = true ↔
        (p.x - c.center.x) * (p.x - c.center.x) + (p.y - c.center.y) * (p.y - c.center.y) ≤
          c.radius * c.radius) ∧
      (c.radius * c.radius ≤ c.radius * c.radius →
        (p.x - c.center.x) * (p.x - c.center.x) + (p.y - c.center.y) * (p.y - c.center.y) =
          c.radius * c.radius →
        isPointInCircle p c = true)) ∧
    ((isPointInCircle q k = true ↔
        (q.x - k.center.x) ^ 2 + (q.y - k.center.y) ^ 2 ≤ k.radius ^ 2) ∧
      ((q.x - k.center.x) ^ 2 + (q.y - k.center.y) ^ 2 = k.radius ^ 2 →
        isPointInCircle q k = true)) := by
  have gen : isPointInCircle p c = true ↔
      (p.x - c.center.x) * (p.x - c.center.x) + (p.y - c.center.y) * (p.y - c.center.y) ≤
        c.radius * c.radius := by
    simp only [isPointInCircle, decide_eq_true_eq]
  have key : isPointInCircle q k = true ↔
      (q.x - k.center.x) ^ 2 + (q.y - k.center.y) ^ 2 ≤ k.radius ^ 2 := by
    simp only [isPointInCircle, decide_eq_true_eq, sq]
  exact ⟨⟨gen, fun hr h => gen.mpr (h ▸ hr)⟩, key, fun h => key.mpr (le_of_eq h)⟩

/-- C4: `isPointInIntersection p circles` is true exactly when
`isPointInCircle p c` is true for every circle `c` of the list, and it is true
for the empty list. Holds for every arithmetic on `D`. -/
theorem isPointInIntersection_iff_forall {D : Type} [Add D] [Sub D] [Mul D] [LE D]
    [∀ a b : D, Decidable (a ≤ b)] (p : Point D) (cs : List (Circle D)) :
    (isPointInIntersection p cs = true ↔ ∀ c ∈ cs, isPointInCircle p c = true) ∧
    isPointInIntersection p ([] : List (Circle D)) = true := by
  refine ⟨?_, rfl⟩
  rw [isPointInIntersection_eq_all, List.all_eq_true]

/-- C5, refuted as stated: with the real `pi` and arcsine the value
`0.25*pi + 1.25*asin(0.8) - 1.0` does not lie in `[0.44255, 0.44265]` (it is
above `0.9`). -/
theorem calculateExactArea_not_near_0_4426 :
    ¬ (calculateExactArea (Cmath.mk Real.pi Real.arcsin Real.sqrt abs) ∈
        Set.Icc (0.44255 : ℝ) 0.44265) := by
  rw [calculateExactArea_real_eq, Set.mem_Icc]
  have hpi := Real.pi_gt_d6
  have ha := arctan_inv_3_bounds.2
  intro h
  norm_num at h hpi ha
  linarith [h.2]

/-- C5, amended: with the real `pi` and arcsine the value
`0.25*pi + 1.25*asin(0.8) - 1.0` returned by `calculateExactArea` is `0.9445`
to four decimal places: it lies in `[0.94445, 0.94455]`. -/
theorem calculateExactArea_near_0_9445 :
    calculateExactArea (Cmath.mk Real.pi Real.arcsin Real.sqrt abs) ∈
      Set.Icc (0.94445 : ℝ) 0.94455 := by
  rw [calculateExactArea_real_eq, Set.mem_Icc]
  have hpi := Real.pi_gt_d6
  have hpi2 := Real.pi_lt_d6
  have ha := arctan_inv_3_bounds
  norm_num at hpi hpi2 ha ⊢
  constructor <;> linarith [ha.1, ha.2]

/-- C6: the value `0.25*pi + 1.25*asin(0.8) - 1.0` of `calculateExactArea`
(with the real `pi` and arcsine) is the two-dimensional Lebesgue measure of the
set of points of the plane that `isPointInIntersection` accepts for the three
circles of `runExperiment` (centre `(1,1)` radius `1`, centre `(1.5,2)` radius
`sqrt(5)/2`, centre `(2,1.5)` radius `sqrt(5)/2`, with the real square root). -/
theorem calculateExactArea_eq_area_of_intersection :
    MeasureTheory.volume {q : ℝ × ℝ | isPointInIntersection (Point.mk q.1 q.2)
        (circles (Cmath.mk Real.pi Real.arcsin Real.sqrt abs)) = true} =
      ENNReal.ofReal (calculateExactArea (Cmath.mk Real.pi Real.arcsin Real.sqrt abs)) ∧
    (MeasureTheory.volume {q : ℝ × ℝ | isPointInIntersection (Point.mk q.1 q.2)
        (circles (Cmath.mk Real.pi Real.arcsin Real.sqrt abs)) = true}).toReal =
      calculateExactArea (Cmath.mk Real.pi Real.arcsin Real.sqrt abs) := by
  have hset : {q : ℝ × ℝ | isPointInIntersection (Point.mk q.1 q.2)
      (circles (Cmath.mk Real.pi Real.arcsin Real.sqrt abs)) = true} =
      {q : ℝ × ℝ | InThreeDisks q} := by
    ext q
    simp only [Set.mem_setOf_eq, mem_circles_real_iff, InThreeDisks]
  have hvol := volume_inThreeDisks
  rw [← calculateExactArea_real_eq_arctan_half, ← hset] at hvol
  have hpos : 0 ≤ calculateExactArea (Cmath.mk Real.pi Real.arcsin Real.sqrt abs) := by
    rw [calculateExactArea_real_eq]
    have hpi := Real.pi_gt_d2
    have ha := arctan_inv_3_bounds.2
    norm_num at hpi ha ⊢
    linarith
  exact ⟨hvol, by rw [hvol, ENNReal.toReal_ofReal hpos]⟩

/-- C7, the code at the failing input: the point `(15/16, 3/2)` lies in all
three circles of `runExperiment`, and left of the narrow region, whose `x_min`
is `1`. -/
theorem narrow_region_misses_intersection_point :
    isPointInIntersection (Point.mk (15 / 16 : ℝ) (3 / 2))
      (circles (Cmath.mk Real.pi Real.arcsin Real.sqrt abs)) = true ∧
    ¬ ((narrow : Region ℝ).x_min ≤ (Point.mk (15 / 16 : ℝ) (3 / 2)).x) := by
  constructor
  · rw [mem_circles_real_iff]
    norm_num
  · simp only [narrow]
    norm_num

/-- C8: over exact arithmetic (any linearly ordered field, any square root),
every point that `isPointInIntersection` accepts for the three circles of
`runExperiment` lies in the wide region: `0 <= p.x <= 3` and `0 <= p.y <= 3`. -/
theorem wide_region_contains_intersection {D : Type} [LinearOrderedField D] (m : Cmath D)
    (p : Point D) (h : isPointInIntersection p (circles m) = true) :
    ((wide : Region D).x_min ≤ p.x ∧ p.x ≤ (wide : Region D).x_max) ∧
    ((wide : Region D).y_min ≤ p.y ∧ p.y ≤ (wide : Region D).y_max) ∧
    (0 ≤ p.x ∧ p.x ≤ 3) ∧ (0 ≤ p.y ∧ p.y ≤ 3) := by
  have hA : (p.x - 1) * (p.x - 1) + (p.y - 1) * (p.y - 1) ≤ 1 := by
    have := h
    simp only [isPointInIntersection_eq_all, circles, List.all_cons, Bool.and_eq_true,
      isPointInCircle, decide_eq_true_eq] at this
    have h1 := this.1
    norm_num at h1
    exact h1
  simp only [wide]
  norm_num
  refine ⟨⟨?_, ?_⟩, ⟨?_, ?_⟩, ⟨?_, ?_⟩, ⟨?_, ?_⟩⟩ <;>
    nlinarith [mul_self_nonneg (p.x - 1), mul_self_nonneg (p.y - 1)]

/-- C8, at a concrete input: the point `(3/2, 3/2)` over the reals, which lies
in all three circles. -/
theorem wide_region_contains_intersection_witness :
    isPointInIntersection (Point.mk (3 / 2 : ℝ) (3 / 2))
      (circles (Cmath.mk Real.pi Real.arcsin Real.sqrt abs)) = true ∧
    (0 ≤ (3 / 2 : ℝ) ∧ (3 / 2 : ℝ) ≤ 3) ∧ (0 ≤ (3 / 2 : ℝ) ∧ (3 / 2 : ℝ) ≤ 3) := by
  have hp : isPointInIntersection (Point.mk (3 / 2 : ℝ) (3 / 2))
      (circles (Cmath.mk Real.pi Real.arcsin Real.sqrt abs)) = true := by
    rw [mem_circles_real_iff]
    norm_num
  exact ⟨hp, (wide_region_contains_intersection _ _ hp).2.2⟩

/-- C9, refuted as stated: called with `num_points = -1` the function does not
fail; the call ends by returning the number `0` (no point is drawn, and
`0 / -1` is multiplied by the area `9`). -/
theorem monteCarloArea_negative_count_returns :
    monteCarloAreaCall lcg [Circle.mk (Point.mk 1 1) 1] 0 3 0 3 (-1) 42 =
      Outcome.returned 0 := by
  simp [monteCarloAreaCall, monteCarloArea, monteCarloLoop]

/-- C9, amended: for every `num_points <= 0` the call of `monteCarloArea` draws
no point, raises no error and ends by returning `(0 / num_points) * area_rect`,
the division being carried out in the arithmetic of `D` whatever it yields.
Holds for every arithmetic on `D` and every generator. -/
theorem monteCarloArea_nonpositive_count {D G : Type} [Add D] [Sub D] [Mul D] [Div D] [LE D]
    [∀ a b : D, Decidable (a ≤ b)] [IntCast D] (R : Random D G) (cs : List (Circle D))
    (x_min x_max y_min y_max : D) (N seed : Int) (hN : N ≤ 0) :
    sampledPoints R x_min x_max y_min y_max N.toNat (R.mt19937 seed) = [] ∧
    monteCarloAreaCall R cs x_min x_max y_min y_max N seed =
      Outcome.returned
        ((((0 : Int) : D) / (N : D)) * ((x_max - x_min) * (y_max - y_min))) := by
  have h0 : N.toNat = 0 := by omega
  constructor
  · rw [h0]; rfl
  · simp only [monteCarloAreaCall, monteCarloArea, h0, monteCarloLoop]

/-- C9 amended, at a concrete input: `num_points = 0` on the stand-in
generator. -/
theorem monteCarloArea_nonpositive_count_witness :
    (0 : Int) ≤ 0 ∧
    monteCarloAreaCall lcg [Circle.mk (Point.mk 1 1) 1] 0 3 0 3 0 42 =
      Outcome.returned ((((0 : Int) : ℚ) / ((0 : Int) : ℚ)) * ((3 - 0) * (3 - 0))) :=
  ⟨le_refl 0, (monteCarloArea_nonpositive_count lcg [Circle.mk (Point.mk 1 1) 1] 0 3 0 3 0 42
    (le_refl 0)).2⟩

/-- C10, refuted as stated: the constructor builds a circle of radius `-1`, a
`Circle` value whose radius is not positive. -/
theorem circle_with_negative_radius_exists :
    (Circle.mk (Point.mk (0 : ℚ) 0) (-1)).radius = -1 ∧
    ¬ (0 < (Circle.mk (Point.mk (0 : ℚ) 0) (-1)).radius) := by
  constructor
  · rfl
  · norm_num

/-- C10, amended: the constructor `Circle(Point c, double r)` accepts every
radius, positive or not, and stores centre and radius unchanged; in particular
for every number `r` there is a `Circle` value of radius `r`. -/
theorem circle_constructor_stores_any_radius {D : Type} (c : Point D) (r : D) :
    (Circle.mk c r).center = c ∧ (Circle.mk c r).radius = r ∧
    ∃ k : Circle D, k.radius = r :=
  ⟨rfl, rfl, Circle.mk c r, rfl⟩

/-- C11: the sweep loop of `runExperiment` terminates (the embedding is a total
function) and emits exactly 200 records whose `N` values are, in order,
`100 + 500 * k` for `k = 0, ..., 199`: strictly increasing and all at most
`100000`. Holds for every arithmetic on `D` and every generator. -/
theorem runExperiment_emits_200_records {D G : Type} [Add D] [Sub D] [Mul D] [Div D] [LE D]
    [∀ a b : D, Decidable (a ≤ b)] [IntCast D] [OfScientific D]
    (R : Random D G) (m : Cmath D) :
    (runExperiment R m).length = 200 ∧
    (runExperiment R m).map (fun it => it.row.N) =
      (List.range 200).map (fun k : Nat => 100 + 500 * (k : Int)) ∧
    List.Pairwise (fun a b : Int => a < b) ((runExperiment R m).map (fun it => it.row.N)) ∧
    ∀ n ∈ (runExperiment R m).map (fun it => it.row.N), n ≤ 100000 := by
  have hN : (runExperiment R m).map (fun it => it.row.N) =
      (List.range 200).map (fun k : Nat => 100 + 500 * (k : Int)) := by
    rw [runExperiment_eq_map, List.map_map]
    rfl
  refine ⟨?_, hN, ?_, ?_⟩
  · rw [runExperiment_eq_map, List.length_map, List.length_range]
  · rw [hN, List.pairwise_map]
    exact (List.pairwise_lt_range 200).imp (fun h => by omega)
  · intro n hn
    rw [hN, List.mem_map] at hn
    obtain ⟨k, hk, rfl⟩ := hn
    rw [List.mem_range] at hk
    omega

/-- C12: the records of `runExperiment` are, in order, for `N = 100 + 500 * k`,
`k = 0, ..., 199`: `(N, wide, abs (wide - exact) / exact, narrow,
abs (narrow - exact) / exact, abs (wide - exact), abs (narrow - exact))`, with
`wide = monteCarloArea(circles, 0, 3, 0, 3, N, N)`,
`narrow = monteCarloArea(circles, 1, 2, 1, 2, N, N)` and
`exact = calculateExactArea()`. Holds for every arithmetic on `D`. -/
theorem runExperiment_rows {D G : Type} [Add D] [Sub D] [Mul D] [Div D] [LE D]
    [∀ a b : D, Decidable (a ≤ b)] [IntCast D] [OfScientific D]
    (R : Random D G) (m : Cmath D) :
    (runExperiment R m).map (fun it => it.row) =
      (List.range 200).map (fun k : Nat =>
        Row.mk (100 + 500 * (k : Int))
          (monteCarloArea R (circles m) 0.0 3.0 0.0 3.0 (100 + 500 * (k : Int))
            (100 + 500 * (k : Int)))
          (m.abs (monteCarloArea R (circles m) 0.0 3.0 0.0 3.0 (100 + 500 * (k : Int))
            (100 + 500 * (k : Int)) - calculateExactArea m) / calculateExactArea m)
          (monteCarloArea R (circles m) 1.0 2.0 1.0 2.0 (100 + 500 * (k : Int))
            (100 + 500 * (k : Int)))
          (m.abs (monteCarloArea R (circles m) 1.0 2.0 1.0 2.0 (100 + 500 * (k : Int))
            (100 + 500 * (k : Int)) - calculateExactArea m) / calculateExactArea m)
          (m.abs (monteCarloArea R (circles m) 0.0 3.0 0.0 3.0 (100 + 500 * (k : Int))
            (100 + 500 * (k : Int)) - calculateExactArea m))
          (m.abs (monteCarloArea R (circles m) 1.0 2.0 1.0 2.0 (100 + 500 * (k : Int))
            (100 + 500 * (k : Int)) - calculateExactArea m))) := by
  rw [runExperiment_eq_map, List.map_map]
  rfl

/-- C13: with the real `pi`, arcsine and absolute value, the divisor
`calculateExactArea()` is strictly positive, so both relative errors
`abs (estimate - exact) / exact` that `runExperiment` writes are well defined
and non-negative, for every `N` of the sweep and every generator. -/
theorem runExperiment_relative_errors_nonneg {G : Type} (R : Random ℝ G) :
    0 < calculateExactArea (Cmath.mk Real.pi Real.arcsin Real.sqrt abs) ∧
    ∀ it ∈ runExperiment R (Cmath.mk Real.pi Real.arcsin Real.sqrt abs),
      0 ≤ it.row.Wide_Relative_Error ∧ 0 ≤ it.row.Narrow_Relative_Error := by
  have hpos : 0 < calculateExactArea (Cmath.mk Real.pi Real.arcsin Real.sqrt abs) := by
    rw [calculateExactArea_real_eq]
    have hpi := Real.pi_gt_d2
    have ha := arctan_inv_3_bounds.2
    norm_num at hpi ha ⊢
    linarith
  refine ⟨hpos, ?_⟩
  intro it hit
  rw [runExperiment_eq_map, List.mem_map] at hit
  obtain ⟨k, -, rfl⟩ := hit
  exact ⟨div_nonneg (abs_nonneg _) hpos.le, div_nonneg (abs_nonneg _) hpos.le⟩

/-- C14: over exact arithmetic (any linearly ordered field) the rectangle-area
computation `(x_max - x_min) * (y_max - y_min)` yields exactly `9.0` for the
wide region `(0,3) x (0,3)` and exactly `1.0` for the narrow region
`(1,2) x (1,2)`. -/
theorem area_rect_wide_narrow {D : Type} [LinearOrderedField D] :
    area_rect (wide : Region D) = 9.0 ∧ area_rect (narrow : Region D) = 1.0 ∧
    ((3.0 : D) - 0.0) * (3.0 - 0.0) = 9.0 ∧ ((2.0 : D) - 1.0) * (2.0 - 1.0) = 1.0 := by
  simp only [area_rect, wide, narrow]
  norm_num

/-- C16, refuted as stated for `double`: with `N = 1` on the rectangle
`[0, 1e200] x [0, 1e200]` and a circle that the point drawn does not meet, the
call returns `(0 / 1) * infinity`, which is not a number: neither the area nor
`0`. -/
theorem monteCarloArea_one_point_overflow :
    isPointInIntersection (drawPoint lcg64 0.0 1e200 0.0 1e200 (lcg64.mt19937 42)).1
      [Circle.mk (Point.mk (-10.0) (-10.0)) 1.0] = false ∧
    monteCarloArea lcg64 [Circle.mk (Point.mk (-10.0) (-10.0)) 1.0]
      0.0 1e200 0.0 1e200 1 42 = F64.nan ∧
    monteCarloArea lcg64 [Circle.mk (Point.mk (-10.0) (-10.0)) 1.0]
      0.0 1e200 0.0 1e200 1 42 ≠ ((1e200 : F64) - 0.0) * ((1e200 : F64) - 0.0) ∧
    monteCarloArea lcg64 [Circle.mk (Point.mk (-10.0) (-10.0)) 1.0]
      0.0 1e200 0.0 1e200 1 42 ≠ 0.0 := by
  decide

/-- C16, amended: with `N = 1` `monteCarloArea` draws one point. In `double`,
when `isPointInIntersection` accepts the point the call returns exactly
`area_rect = (x_max - x_min) * (y_max - y_min)`, whatever `area_rect` is; when
it does not, the call returns `0.0 * area_rect`, which is a zero (of the sign
of `area_rect`) when `area_rect` is finite and is not a number when `area_rect`
is infinite or not a number. In exact arithmetic (any linearly ordered field)
the two values are `area_rect` and `0`. -/
theorem monteCarloArea_one_point {G : Type} (R : Random F64 G) (cs : List (Circle F64))
    (x_min x_max y_min y_max : F64) {K H : Type} [LinearOrderedField K] (S : Random K H)
    (ks : List (Circle K)) (a_min a_max b_min b_max : K) (seed : Int) :
    (sampledPoints R x_min x_max y_min y_max 1 (R.mt19937 seed) =
        [(drawPoint R x_min x_max y_min y_max (R.mt19937 seed)).1] ∧
      (isPointInIntersection (drawPoint R x_min x_max y_min y_max (R.mt19937 seed)).1 cs = true →
        monteCarloArea R cs x_min x_max y_min y_max 1 seed =
          (x_max - x_min) * (y_max - y_min)) ∧
      (isPointInIntersection (drawPoint R x_min x_max y_min y_max (R.mt19937 seed)).1 cs = false →
        monteCarloArea R cs x_min x_max y_min y_max 1 seed =
            (0.0 : F64) * ((x_max - x_min) * (y_max - y_min)) ∧
          (∀ (s : Bool) (m : Nat) (e : Int),
            (x_max - x_min) * (y_max - y_min) = F64.fin s m e →
            monteCarloArea R cs x_min x_max y_min y_max 1 seed = F64.fin s 0 (-1074)) ∧
          ((∀ (s : Bool) (m : Nat) (e : Int),
              (x_max - x_min) * (y_max - y_min) ≠ F64.fin s m e) →
            monteCarloArea R cs x_min x_max y_min y_max 1 seed = F64.nan))) ∧
    (monteCarloArea S ks a_min a_max b_min b_max 1 seed =
        (if isPointInIntersection (drawPoint S a_min a_max b_min b_max (S.mt19937 seed)).1 ks
          then (a_max - a_min) * (b_max - b_min) else 0) ∧
      (monteCarloArea S ks a_min a_max b_min b_max 1 seed = (a_max - a_min) * (b_max - b_min) ∨
        monteCarloArea S ks a_min a_max b_min b_max 1 seed = 0)) := by
  have h1 : (1 : Int).toNat = 1 := rfl
  have hone : ((1 : Int) : F64) / ((1 : Int) : F64) = F64.fin false (2 ^ 52) (-52) := by decide
  have hzero : ((0 : Int) : F64) / ((1 : Int) : F64) = F64.fin false 0 (-1074) := by decide
  have hgen : monteCarloArea R cs x_min x_max y_min y_max 1 seed =
      (if isPointInIntersection (drawPoint R x_min x_max y_min y_max (R.mt19937 seed)).1 cs
        then (((1 : Int) : F64) / ((1 : Int) : F64)) * ((x_max - x_min) * (y_max - y_min))
        else (((0 : Int) : F64) / ((1 : Int) : F64)) * ((x_max - x_min) * (y_max - y_min))) := by
    simp only [monteCarloArea, h1, monteCarloLoop]
    split <;> simp
  refine ⟨⟨rfl, ?_, ?_⟩, ?_⟩
  · intro hin
    rw [hgen, if_pos hin, hone]
    exact F64.one_mul_product _ _
  · intro hout
    have hres : monteCarloArea R cs x_min x_max y_min y_max 1 seed =
        F64.fin false 0 (-1074) * ((x_max - x_min) * (y_max - y_min)) := by
      rw [hgen, hout, hzero]
      simp
    refine ⟨by rw [hres, F64.zero_eq], ?_, ?_⟩
    · intro s m e hA
      rw [hres, hA]
      exact F64.zero_mul_fin s m e
    · intro hA
      rw [hres]
      rcases F64.mul_cases (x_max - x_min) (y_max - y_min) with h | ⟨s, h⟩ | ⟨s, m, e, h, -⟩
      · rw [h]
        rfl
      · rw [h]
        rfl
      · exact absurd h (hA s m e)
  · have key : monteCarloArea S ks a_min a_max b_min b_max 1 seed =
        (if isPointInIntersection (drawPoint S a_min a_max b_min b_max (S.mt19937 seed)).1 ks
          then (a_max - a_min) * (b_max - b_min) else 0) := by
      simp only [monteCarloArea, h1, monteCarloLoop]
      split <;> simp
    refine ⟨key, ?_⟩
    rw [key]
    split
    · exact Or.inl rfl
    · exact Or.inr rfl

/-- C16 amended, at concrete inputs on the `double` model: in the rectangle
`[0,3] x [0,3]` the point drawn for seed `42` lies in the unit circle around
`(1,1)` and the call returns the area `9.0`; it does not lie in the unit circle
around `(-10,-10)` and the call returns `0.0`. -/
theorem monteCarloArea_one_point_witness :
    (isPointInIntersection (drawPoint lcg64 0.0 3.0 0.0 3.0 (lcg64.mt19937 42)).1
        [Circle.mk (Point.mk 1.0 1.0) 1.0] = true ∧
      monteCarloArea lcg64 [Circle.mk (Point.mk 1.0 1.0) 1.0] 0.0 3.0 0.0 3.0 1 42 =
        ((3.0 : F64) - 0.0) * (3.0 - 0.0) ∧
      ((3.0 : F64) - 0.0) * (3.0 - 0.0) = 9.0) ∧
    (isPointInIntersection (drawPoint lcg64 0.0 3.0 0.0 3.0 (lcg64.mt19937 42)).1
        [Circle.mk (Point.mk (-10.0) (-10.0)) 1.0] = false ∧
      monteCarloArea lcg64 [Circle.mk (Point.mk (-10.0) (-10.0)) 1.0] 0.0 3.0 0.0 3.0 1 42 =
        F64.fin false 0 (-1074) ∧
      (0.0 : F64) = F64.fin false 0 (-1074)) :=
  ⟨⟨by decide,
      (monteCarloArea_one_point lcg64 [Circle.mk (Point.mk 1.0 1.0) 1.0] 0.0 3.0 0.0 3.0
        lcg [Circle.mk (Point.mk 1 1) 1] 0 3 0 3 42).1.2.1 (by decide),
      by decide⟩,
    by decide,
    ((monteCarloArea_one_point lcg64 [Circle.mk (Point.mk (-10.0) (-10.0)) 1.0] 0.0 3.0 0.0 3.0
        lcg [Circle.mk (Point.mk 1 1) 1] 0 3 0 3 42).1.2.2 (by decide)).2.1
      false 5066549580791808 (-49) (by decide),
    by decide⟩

/-- C17: for every `N` the sweep visits, `N % 10000` is not zero, so no
iteration of `runExperiment` prints the progress line of lines 101-103. -/
theorem runExperiment_never_prints_progress {D G : Type} [Add D] [Sub D] [Mul D] [Div D]
    [LE D] [∀ a b : D, Decidable (a ≤ b)] [IntCast D] [OfScientific D]
    (R : Random D G) (m : Cmath D) :
    (runExperiment R m).map (fun it => it.progress) = List.replicate 200 false ∧
    ∀ it ∈ runExperiment R m, Int.tmod it.row.N 10000 ≠ 0 ∧ it.progress = false := by
  have hall : ∀ it ∈ runExperiment R m, Int.tmod it.row.N 10000 ≠ 0 ∧ it.progress = false := by
    intro it hit
    rw [runExperiment_eq_map, List.mem_map] at hit
    obtain ⟨k, -, rfl⟩ := hit
    have h := sweep_value_tmod_ne_zero k
    exact ⟨h, by simp only [sweepBody, decide_eq_false_iff_not]; exact h⟩
  refine ⟨?_, hall⟩
  rw [List.eq_replicate_iff]
  refine ⟨by rw [List.length_map, runExperiment_eq_map, List.length_map, List.length_range], ?_⟩
  intro b hb
  rw [List.mem_map] at hb
  obtain ⟨it, hit, rfl⟩ := hb
  exact (hall it hit).2

/-- C18, refuted as stated for `double`: on the rectangle
`[0, 1e200] x [0, 1e200]` (`x_min <= x_max`, `y_min <= y_max`, `N = 4 > 0`) with
`A` empty and `B` one circle that no point of the rectangle meets,
`monteCarloArea (A ++ B)` is `(0 / 4) * infinity`, not a number, and
`monteCarloArea A` is `(4 / 4) * infinity = infinity`: the comparison `<=` is
false. -/
theorem monteCarloArea_append_overflow :
    monteCarloArea lcg64 ([] ++ [Circle.mk (Point.mk (-10.0) (-10.0)) 1.0])
      0.0 1e200 0.0 1e200 4 42 = F64.nan ∧
    monteCarloArea lcg64 [] 0.0 1e200 0.0 1e200 4 42 = F64.inf false ∧
    ¬ (monteCarloArea lcg64 ([] ++ [Circle.mk (Point.mk (-10.0) (-10.0)) 1.0])
        0.0 1e200 0.0 1e200 4 42 ≤
      monteCarloArea lcg64 [] 0.0 1e200 0.0 1e200 4 42) := by
  decide

/-- C18, amended: `isPointInIntersection p (A ++ B)` implies
`isPointInIntersection p A`; consequently, for the same rectangle,
`0 < N < 2^53` (every `int`) and seed, `monteCarloArea (A ++ B) ...` is
`(j / N) * area_rect` and `monteCarloArea A ...` is `(k / N) * area_rect` for
integers `0 <= j <= k <= N`; and in `double`, when `x_min <= x_max`,
`y_min <= y_max` and `area_rect = (x_max - x_min) * (y_max - y_min)` is finite
(it has not overflowed to an infinity and is not a NaN),
`monteCarloArea (A ++ B) ... <= monteCarloArea A ...`. In exact arithmetic (any
linearly ordered field) the inequality holds whenever `x_min <= x_max` and
`y_min <= y_max`. -/
theorem monteCarloArea_append_le {G : Type} (R : Random F64 G) (A B : List (Circle F64))
    (x_min x_max y_min y_max : F64) {K H : Type} [LinearOrderedField K] (S : Random K H)
    (A2 B2 : List (Circle K)) (a_min a_max b_min b_max : K) (N seed : Int)
    (hN : 0 < N) (hN53 : N < 2 ^ 53) :
    ((∀ p : Point F64, isPointInIntersection p (A ++ B) = true →
        isPointInIntersection p A = true) ∧
      (∃ j k : Int, 0 ≤ j ∧ j ≤ k ∧ k ≤ N ∧
        monteCarloArea R (A ++ B) x_min x_max y_min y_max N seed =
          ((j : F64) / (N : F64)) * ((x_max - x_min) * (y_max - y_min)) ∧
        monteCarloArea R A x_min x_max y_min y_max N seed =
          ((k : F64) / (N : F64)) * ((x_max - x_min) * (y_max - y_min))) ∧
      (x_min ≤ x_max → y_min ≤ y_max →
        (∃ (s : Bool) (m : Nat) (e : Int),
          (x_max - x_min) * (y_max - y_min) = F64.fin s m e) →
        monteCarloArea R (A ++ B) x_min x_max y_min y_max N seed ≤
          monteCarloArea R A x_min x_max y_min y_max N seed)) ∧
    ((∀ p : Point K, isPointInIntersection p (A2 ++ B2) = true →
        isPointInIntersection p A2 = true) ∧
      (a_min ≤ a_max → b_min ≤ b_max →
        monteCarloArea S (A2 ++ B2) a_min a_max b_min b_max N seed ≤
          monteCarloArea S A2 a_min a_max b_min b_max N seed)) := by
  have himp : ∀ {E : Type} [Add E] [Sub E] [Mul E] [LE E] [∀ a b : E, Decidable (a ≤ b)]
      (X Y : List (Circle E)) (p : Point E),
      isPointInIntersection p (X ++ Y) = true → isPointInIntersection p X = true := by
    intro E _ _ _ _ _ X Y p h
    rw [isPointInIntersection_eq_all, List.all_append, Bool.and_eq_true] at h
    rw [isPointInIntersection_eq_all]
    exact h.1
  have hcnt : (sampledPoints R x_min x_max y_min y_max N.toNat (R.mt19937 seed)).countP
        (fun p => isPointInIntersection p (A ++ B)) ≤
      (sampledPoints R x_min x_max y_min y_max N.toNat (R.mt19937 seed)).countP
        (fun p => isPointInIntersection p A) :=
    List.countP_mono_left (fun p _ h => himp A B p h)
  have hcntN := countP_sampledPoints_le R A x_min x_max y_min y_max N.toNat (R.mt19937 seed)
  refine ⟨⟨himp A B, ?_, ?_⟩, himp A2 B2, ?_⟩
  · refine ⟨((sampledPoints R x_min x_max y_min y_max N.toNat (R.mt19937 seed)).countP
        (fun p => isPointInIntersection p (A ++ B)) : Nat),
      ((sampledPoints R x_min x_max y_min y_max N.toNat (R.mt19937 seed)).countP
        (fun p => isPointInIntersection p A) : Nat), Int.ofNat_nonneg _, ?_, ?_, ?_, ?_⟩
    · exact Int.ofNat_le.2 hcnt
    · omega
    · simp only [monteCarloArea, monteCarloLoop_eq_countP, zero_add]
    · simp only [monteCarloArea, monteCarloLoop_eq_countP, zero_add]
  · intro hx hy hfin
    obtain ⟨s, m, e, hA, hm, h1, h2, hc, hs⟩ :=
      F64.area_finite_nonneg x_min x_max y_min y_max hx hy hfin
    simp only [monteCarloArea, monteCarloLoop_eq_countP, zero_add]
    rw [hA]
    exact F64.ratio_mul_mono _ _ N (Int.ofNat_nonneg _) (Int.ofNat_le.2 hcnt) (by omega) hN hN53
      s m e hm h1 h2 hc hs
  · intro hx hy
    have hA : 0 ≤ (a_max - a_min) * (b_max - b_min) :=
      mul_nonneg (sub_nonneg.2 hx) (sub_nonneg.2 hy)
    have hND : (0 : K) < (N : K) := Int.cast_pos.2 hN
    have hcount : (sampledPoints S a_min a_max b_min b_max N.toNat (S.mt19937 seed)).countP
          (fun p => isPointInIntersection p (A2 ++ B2)) ≤
        (sampledPoints S a_min a_max b_min b_max N.toNat (S.mt19937 seed)).countP
          (fun p => isPointInIntersection p A2) :=
      List.countP_mono_left (fun p _ h => himp A2 B2 p h)
    simp only [monteCarloArea, monteCarloLoop_eq_countP, zero_add]
    apply mul_le_mul_of_nonneg_right _ hA
    apply div_le_div_of_nonneg_right _ hND.le
    exact Int.cast_le.2 (Int.ofNat_le.2 hcount)

/-- C18 amended, at a concrete input: four points of the stand-in generator in
the rectangle `[0,3] x [0,3]`, one circle against two, on the `double` model
(where the area `9.0` is finite) and over the rationals. -/
theorem monteCarloArea_append_le_witness :
    ((0 : Int) < 4 ∧ (4 : Int) < 2 ^ 53) ∧
    monteCarloArea lcg64 ([Circle.mk (Point.mk 1.0 1.0) 1.0] ++ [Circle.mk (Point.mk 2.0 1.0) 1.0])
        0.0 3.0 0.0 3.0 4 42 ≤
      monteCarloArea lcg64 [Circle.mk (Point.mk 1.0 1.0) 1.0] 0.0 3.0 0.0 3.0 4 42 ∧
    monteCarloArea lcg ([Circle.mk (Point.mk 1 1) 1] ++ [Circle.mk (Point.mk 2 1) 1])
        0 3 0 3 4 42 ≤
      monteCarloArea lcg [Circle.mk (Point.mk 1 1) 1] 0 3 0 3 4 42 :=
  ⟨⟨by decide, by decide⟩,
    (monteCarloArea_append_le lcg64 [Circle.mk (Point.mk 1.0 1.0) 1.0]
      [Circle.mk (Point.mk 2.0 1.0) 1.0] 0.0 3.0 0.0 3.0 lcg [Circle.mk (Point.mk 1 1) 1]
      [Circle.mk (Point.mk 2 1) 1] 0 3 0 3 4 42 (by decide) (by decide)).1.2.2
      (by decide) (by decide) ⟨false, 5066549580791808, -49, by decide⟩,
    (monteCarloArea_append_le lcg64 [Circle.mk (Point.mk 1.0 1.0) 1.0]
      [Circle.mk (Point.mk 2.0 1.0) 1.0] 0.0 3.0 0.0 3.0 lcg [Circle.mk (Point.mk 1 1) 1]
      [Circle.mk (Point.mk 2 1) 1] 0 3 0 3 4 42 (by decide) (by decide)).2.2
      (by norm_num) (by norm_num)⟩

/-- C19, refuted as stated for `double`: the circle of radius `0` around the
origin accepts the point `(1e-200, 0)`, which is not its centre: the square of
`1e-200` underflows to `0`. -/
theorem isPointInCircle_radius_zero_underflow :
    isPointInCircle (Point.mk (1e-200 : F64) 0.0) (Circle.mk (Point.mk 0.0 0.0) 0.0) = true ∧
    (1e-200 : F64) ≠ 0.0 ∧ F64.toRat (1e-200 : F64) ≠ F64.toRat 0.0 ∧
    (1e-200 : F64) * 1e-200 = 0.0 := by
  have hx : (1e-200 : F64) = F64.fin false 6894565328877484 (-717) := by decide
  have h0 : (0.0 : F64) = F64.fin false 0 (-1074) := by decide
  refine ⟨by decide, by decide, ?_, by decide⟩
  rw [hx, h0]
  simp only [F64.toRat]
  norm_num

/-- C19, amended: `isPointInCircle` depends on the radius only through
`radius * radius`. In `double`, the circles of radius `-r`, `r` and `|r|`
around the same centre give the same answer for every point, and the circle of
radius `0` accepts a point exactly when its computed `dx * dx + dy * dy` is
`<= 0`, which holds at its centre when the centre is finite. In exact
arithmetic (any linearly ordered field) the three radii give the same answer
and the circle of radius `0` contains exactly its centre. -/
theorem isPointInCircle_radius_sign (p c : Point F64) (r : F64)
    {K : Type} [LinearOrderedField K] (q k : Point K) (t : K) :
    (isPointInCircle p (Circle.mk c (-r)) = isPointInCircle p (Circle.mk c r) ∧
      isPointInCircle p (Circle.mk c (F64.abs r)) = isPointInCircle p (Circle.mk c r) ∧
      (isPointInCircle p (Circle.mk c 0.0) = true ↔
        (p.x - c.x) * (p.x - c.x) + (p.y - c.y) * (p.y - c.y) ≤ (0.0 : F64)) ∧
      ∀ (s1 s2 : Bool) (m1 m2 : Nat) (e1 e2 : Int),
        isPointInCircle (Point.mk (F64.fin s1 m1 e1) (F64.fin s2 m2 e2))
          (Circle.mk (Point.mk (F64.fin s1 m1 e1) (F64.fin s2 m2 e2)) 0.0) = true) ∧
    (isPointInCircle q (Circle.mk k (-t)) = isPointInCircle q (Circle.mk k t) ∧
      isPointInCircle q (Circle.mk k t) = isPointInCircle q (Circle.mk k |t|) ∧
      (isPointInCircle q (Circle.mk k 0) = true ↔ q = k)) := by
  have hneg : (-r) * (-r) = r * r := by
    show F64.mul (F64.neg r) (F64.neg r) = F64.mul r r
    cases r <;> simp [F64.mul, F64.neg]
  have habs : F64.abs r * F64.abs r = r * r := by
    show F64.mul (F64.abs r) (F64.abs r) = F64.mul r r
    cases r <;> simp [F64.mul, F64.abs]
  have h00 : (0.0 : F64) * 0.0 = 0.0 := by decide
  have h0 : (0.0 : F64) = F64.fin false 0 (-1074) := by decide
  refine ⟨⟨?_, ?_, ?_, ?_⟩, ?_, ?_, ?_⟩
  · simp only [isPointInCircle, hneg]
  · simp only [isPointInCircle, habs]
  · simp only [isPointInCircle, decide_eq_true_eq, h00]
  · intro s1 s2 m1 m2 e1 e2
    have hsub : ∀ (s : Bool) (m : Nat) (e : Int),
        F64.fin s m e - F64.fin s m e = F64.fin false 0 (-1074) := by
      intro s m e
      show F64.add (F64.fin s m e) (F64.neg (F64.fin s m e)) = F64.fin false 0 (-1074)
      cases s <;> simp [F64.add, F64.neg, F64.signed]
    simp only [isPointInCircle, hsub, h00, h0]
    decide
  · simp only [isPointInCircle, neg_mul_neg]
  · simp only [isPointInCircle, abs_mul_abs_self]
  · simp only [isPointInCircle, decide_eq_true_eq, mul_zero]
    constructor
    · intro h
      have hx : q.x - k.x = 0 := by
        nlinarith [mul_self_nonneg (q.x - k.x), mul_self_nonneg (q.y - k.y)]
      have hy : q.y - k.y = 0 := by
        nlinarith [mul_self_nonneg (q.x - k.x), mul_self_nonneg (q.y - k.y)]
      cases q
      cases k
      simp only [Point.mk.injEq]
      exact ⟨sub_eq_zero.1 hx, sub_eq_zero.1 hy⟩
    · rintro rfl
      simp

end SET3
